import Mathlib

/-!
Verification of the Sudoku solving core of `sudAug1925.py` (class `SudokuLogic`).

The board is embedded as a list of rows of naturals; Python's in-place mutation
of the single working board is embedded as explicit state passing (each
`board[r][c] = v` becomes a functional update of the threaded board value).
The recursive solvers are given an explicit fuel argument; fuel `82` dominates
the recursion depth, which is bounded by one plus the number of empty cells
(each recursive call fills at least one cell), so the fuel-exhaustion branch is
unreachable on 9x9 boards.

Python `set` objects of candidate digits are embedded as strictly ascending
lists of digits: the code only ever takes their length, their sole member when
a singleton, or iterates them in `sorted(...)` order, so the ascending list is
an exact model of every observation the code makes.

Trace strings (`moves.append(f"...")`) carry a step kind, a cell and a value;
they are embedded as a structured `Move` record holding the same data.
-/

set_option maxHeartbeats 1000000
set_option maxRecDepth 8000

namespace Sudoku

abbrev Board := List (List Nat)

/-- Read `board[r][c]`; total, defaulting to 0 out of range. -/
def getCell (b : Board) (r c : Nat) : Nat := (b.getD r []).getD c 0

/-- Write `board[r][c] = v` as a functional update of the board value. -/
def setCell (b : Board) (r c v : Nat) : Board := b.set r ((b.getD r []).set c v)

/-- `deep_copy(board)`: `[row[:] for row in board]`, a value-level copy. -/
def deep_copy (b : Board) : Board := b.map (fun row => row.map (fun v => v))

/-- One structured trace entry; it carries the data of the Python f-string. -/
inductive Move where
  | tryM : Nat → Nat → Nat → Move
  | backM : Nat → Nat → Nat → Move
  | singleM : Nat → Nat → Nat → Move
  | chooseM : Nat → Nat → Nat → Move
deriving DecidableEq, Repr

/-- `is_valid_move(board, r, c, v)` from the source. -/
def is_valid_move (b : Board) (r c v : Nat) : Bool :=
  if v = 0 then true
  else if (List.range 9).any (fun x => !(x == c) && (getCell b r x == v)) then false
  else if (List.range 9).any (fun x => !(x == r) && (getCell b x c == v)) then false
  else
    let br := r / 3 * 3
    let bc := c / 3 * 3
    !((List.range 3).any (fun i => (List.range 3).any (fun j =>
        (!(br + i == r) || !(bc + j == c)) && (getCell b (br + i) (bc + j) == v))))

/-- `find_empty(board)`: first zero cell in row-major order. -/
def find_empty (b : Board) : Option (Nat × Nat) :=
  (List.range 9).findSome? (fun i => (List.range 9).findSome? (fun j =>
    if getCell b i j = 0 then some (i, j) else none))

/-- The values the source unions into `used`: the row list itself, the nine
column cells, and the nine box cells. -/
def usedVals (b : Board) (r c : Nat) : List Nat :=
  (b.getD r []) ++ (List.range 9).map (fun x => getCell b x c) ++
    ((List.range 3).flatMap (fun i => (List.range 3).map (fun j =>
      getCell b (r / 3 * 3 + i) (c / 3 * 3 + j))))

/-- `candidates(board, r, c)`: the set `{v in 1..9 | v not in used}`, embedded
as the ascending list of its members. -/
def candidates (b : Board) (r c : Nat) : List Nat :=
  if getCell b r c ≠ 0 then []
  else (List.range' 1 9).filter (fun v => !((usedVals b r c).contains v))

/-- Row-major list of the 81 cell coordinates, as scanned by the source. -/
def allCells : List (Nat × Nat) :=
  (List.range 9).flatMap (fun r => (List.range 9).map (fun c => (r, c)))

/-- One cell step of a `propagate_singles` scan: commit when the candidate set
of an empty cell is a singleton. -/
def passStep (st : Bool × Board × List Move) (rc : Nat × Nat) :
    Bool × Board × List Move :=
  let (progress, b, ms) := st
  let (r, c) := rc
  if getCell b r c = 0 then
    match candidates b r c with
    | [v] => (true, setCell b r c v, ms ++ [Move.singleM r c v])
    | _ => (progress, b, ms)
  else (progress, b, ms)

/-- One full 81-cell scan of `propagate_singles`. -/
def onePass (b : Board) (ms : List Move) : Bool × Board × List Move :=
  allCells.foldl passStep (false, b, ms)

/-- The `while True` loop of `propagate_singles`, with fuel; each productive
pass fills at least one empty cell, so fuel 82 always reaches the fixpoint. -/
def propLoop : Nat → Board → List Move → Bool → Bool × Board × List Move
  | 0, b, ms, changed => (changed, b, ms)
  | Nat.succ fuel, b, ms, changed =>
    let res := onePass b ms
    if res.1 then propLoop fuel res.2.1 res.2.2 true
    else (changed, res.2.1, res.2.2)

/-- `propagate_singles(board, moves)`: returns (changed, board, moves). -/
def propagate_singles (b : Board) (ms : List Move) : Bool × Board × List Move :=
  propLoop 82 b ms false

/-- The digits 1..9 tried in ascending order by the brute-force loop. -/
def digits : List Nat := [1, 2, 3, 4, 5, 6, 7, 8, 9]

/-- The `for v in range(1, 10)` loop of the brute-force `bt()`; `rec` is the
recursive call to `bt` one level deeper. -/
def goB (rec : Board → List Move → Bool × Board × List Move) :
    Board → List Move → Nat → Nat → List Nat → Bool × Board × List Move
  | b, ms, _, _, [] => (false, b, ms)
  | b, ms, r, c, v :: vs =>
    if is_valid_move b r c v then
      let res := rec (setCell b r c v) (ms ++ [Move.tryM r c v])
      if res.1 then res
      else goB rec (setCell res.2.1 r c 0) (res.2.2 ++ [Move.backM r c v]) r c vs
    else goB rec b ms r c vs

/-- The inner `bt()` of `solve_bruteforce`, fuel-indexed; returns the success
flag together with the working board and trace it left behind. -/
def btB : Nat → Board → List Move → Bool × Board × List Move
  | 0, b, ms => (false, b, ms)
  | Nat.succ fuel, b, ms =>
    match find_empty b with
    | none => (true, b, ms)
    | some (r, c) => goB (btB fuel) b ms r c digits

/-- `solve_bruteforce(board, moves)`; the pair is (result, final trace). -/
def solve_bruteforce (b : Board) (ms : List Move) : Option Board × List Move :=
  let board := deep_copy b
  let res := btB 82 board ms
  (if res.1 then some res.2.1 else none, res.2.2)

/-- The scanning loop of `select_mrv_cell`: `best` holds the best cell so far;
an empty candidate set of an empty cell returns `none` at once, exactly as the
early `return None` does (the source conflates it with the no-empty-cell exit). -/
def mrvGo (b : Board) : List (Nat × Nat) → Option (Nat × Nat × List Nat) →
    Option (Nat × Nat × List Nat)
  | [], best => best
  | (r, c) :: rest, best =>
    if getCell b r c = 0 then
      let cand := candidates b r c
      if cand.isEmpty then none
      else
        match best with
        | none => mrvGo b rest (some (r, c, cand))
        | some best' =>
          if cand.length < best'.2.2.length then mrvGo b rest (some (r, c, cand))
          else mrvGo b rest best
    else mrvGo b rest best

/-- `select_mrv_cell()` of `solve_backtracking_propagation`. -/
def select_mrv_cell (b : Board) : Option (Nat × Nat × List Nat) :=
  mrvGo b allCells none

/-- The `for v in sorted(cand)` loop of the MRV `bt()`; the candidate list is
already ascending, and `rec` is the recursive call to `bt` one level deeper.
Note the "MRV choose" entry is appended before the legality re-check, and on
backtracking only the branched cell is reset. -/
def goP (rec : Board → List Move → Bool × Board × List Move) :
    Board → List Move → Nat → Nat → List Nat → Bool × Board × List Move
  | b, ms, _, _, [] => (false, b, ms)
  | b, ms, r, c, v :: vs =>
    let ms1 := ms ++ [Move.chooseM r c v]
    if is_valid_move b r c v then
      let pr := propagate_singles (setCell b r c v) ms1
      let res := rec pr.2.1 pr.2.2
      if res.1 then res
      else goP rec (setCell res.2.1 r c 0) (res.2.2 ++ [Move.backM r c v]) r c vs
    else goP rec b ms1 r c vs

/-- The inner `bt()` of `solve_backtracking_propagation`, fuel-indexed. -/
def btP : Nat → Board → List Move → Bool × Board × List Move
  | 0, b, ms => (false, b, ms)
  | Nat.succ fuel, b, ms =>
    match select_mrv_cell b with
    | none => ((find_empty b).isNone, b, ms)
    | some (r, c, cand) => goP (btP fuel) b ms r c cand

/-- `solve_backtracking_propagation(board, moves)`. -/
def solve_backtracking_propagation (b : Board) (ms : List Move) :
    Option Board × List Move :=
  let board := deep_copy b
  let pr := propagate_singles board ms
  let res := btP 82 pr.2.1 pr.2.2
  (if res.1 then some res.2.1 else none, res.2.2)

/-- Python's `sorted` on a list of naturals. -/
def pySorted (l : List Nat) : List Nat := l.insertionSort (· ≤ ·)

/-- `list(range(1, 10))`. -/
def nine : List Nat := [1, 2, 3, 4, 5, 6, 7, 8, 9]

/-- The nine cells of the box whose top-left corner is `(br, bc)`, in the
row-major order of the source's comprehension. -/
def boxCells (b : Board) (br bc : Nat) : List Nat :=
  (List.range 3).flatMap (fun i => (List.range 3).map (fun j =>
    getCell b (br + i) (bc + j)))

/-- The column `c` as read by the source: `[board[r][c] for r in range(9)]`. -/
def colCells (b : Board) (c : Nat) : List Nat :=
  (List.range 9).map (fun r => getCell b r c)

/-- `is_complete_and_valid(board)` from the source. -/
def is_complete_and_valid (b : Board) : Bool :=
  (List.range 9).all (fun r => pySorted (b.getD r []) == nine) &&
  (List.range 9).all (fun c => pySorted (colCells b c) == nine) &&
  ([0, 3, 6].all (fun br => [0, 3, 6].all (fun bc =>
    pySorted (boxCells b br bc) == nine)))

/-! ### Basic facts about cell access and update -/

theorem deep_copy_eq (b : Board) : deep_copy b = b := by
  simp [deep_copy]

theorem getCell_setCell_ne (b : Board) (r c v r' c' : Nat)
    (h : ¬(r' = r ∧ c' = c)) :
    getCell (setCell b r c v) r' c' = getCell b r' c' := by
  unfold getCell setCell
  rcases eq_or_ne r' r with rfl | hr
  · have hc : c' ≠ c := fun hc => h ⟨rfl, hc⟩
    simp only [List.getD_eq_getElem?_getD, List.getElem?_set_self']
    cases hb : b[r']? with
    | none => simp [hb]
    | some row => simp [hb, List.getElem?_set_ne (Ne.symm hc)]
  · simp [List.getD_eq_getElem?_getD, List.getElem?_set_ne (Ne.symm hr)]

/-- The written cell reads back `v` or, when the write is out of range, is
left unchanged. -/
theorem getCell_setCell_self_or (b : Board) (r c v : Nat) :
    getCell (setCell b r c v) r c = v ∨
      getCell (setCell b r c v) r c = getCell b r c := by
  unfold getCell setCell
  simp only [List.getD_eq_getElem?_getD, List.getElem?_set_self']
  cases hb : b[r]? with
  | none => simp [hb]
  | some row =>
    simp only [hb, Option.map_some', Option.getD_some]
    by_cases hc : c < row.length
    · left
      simp [List.getElem?_set_self hc]
    · right
      rw [List.set_eq_of_length_le (Nat.le_of_not_lt hc)]
      simp [hb]

/-- A 9x9 board. -/
def WF (b : Board) : Prop := b.length = 9 ∧ ∀ row ∈ b, row.length = 9

instance : DecidablePred WF := fun b => by
  unfold WF
  infer_instance

theorem WF_setCell (b : Board) (r c v : Nat) (h : WF b) : WF (setCell b r c v) := by
  obtain ⟨hlen, hrow⟩ := h
  refine ⟨by simp [setCell, hlen], ?_⟩
  intro row hmem
  rcases List.mem_or_eq_of_mem_set hmem with hmem' | rfl
  · exact hrow _ hmem'
  · rcases Nat.lt_or_ge r b.length with hr | hr
    · have : (b.getD r []).length = 9 := by
        rw [List.getD_eq_getElem?_getD, List.getElem?_eq_getElem hr]
        exact hrow _ (List.getElem_mem hr)
      simpa using this
    · exfalso
      unfold setCell at hmem
      have : b.set r ((b.getD r []).set c v) = b := List.set_eq_of_length_le hr
      rw [this] at hmem
      have h9 := hrow _ hmem
      have : (b.getD r []).length = 9 := by simpa using h9
      rw [List.getD_eq_getElem?_getD, List.getElem?_eq_none hr] at this
      simp at this

theorem getCell_setCell_self (b : Board) (r c v : Nat) (hWF : WF b)
    (hr : r < 9) (hc : c < 9) :
    getCell (setCell b r c v) r c = v := by
  obtain ⟨hlen, hrow⟩ := hWF
  have hrb : r < b.length := by omega
  have hrowlen : (b.getD r []).length = 9 := by
    rw [List.getD_eq_getElem?_getD, List.getElem?_eq_getElem hrb]
    exact hrow _ (List.getElem_mem hrb)
  have hcb : c < (b.getD r []).length := by omega
  unfold getCell setCell
  simp only [List.getD_eq_getElem?_getD, List.getElem?_set_self',
    List.getElem?_eq_getElem hrb, Option.map_some', Option.getD_some]
  rw [List.getD_eq_getElem?_getD, List.getElem?_eq_getElem hrb] at hcb
  have hcb' : c < (b[r]).length := by simpa using hcb
  simp [List.getElem?_set_self hcb']

/-- All cell values of the 9x9 window are at most 9. -/
def inRange (b : Board) : Prop := ∀ r < 9, ∀ c < 9, getCell b r c ≤ 9

instance : DecidablePred inRange := fun b => by
  unfold inRange
  infer_instance

theorem inRange_setCell (b : Board) (r c v : Nat) (hv : v ≤ 9)
    (h : inRange b) : inRange (setCell b r c v) := by
  intro r' hr' c' hc'
  by_cases hrc : r' = r ∧ c' = c
  · obtain ⟨rfl, rfl⟩ := hrc
    rcases getCell_setCell_self_or b r' c' v with heq | heq
    · omega
    · rw [heq]
      exact h r' hr' c' hc'
  · rw [getCell_setCell_ne b r c v r' c' hrc]
    exact h r' hr' c' hc'

/-- Every cell that is non-zero in `b` holds the same value in `b'`. -/
def Preserves (b b' : Board) : Prop :=
  ∀ r c, getCell b r c ≠ 0 → getCell b' r c = getCell b r c

theorem Preserves.refl (b : Board) : Preserves b b := fun _ _ _ => Eq.refl _

theorem Preserves.trans {a b c : Board} (h1 : Preserves a b) (h2 : Preserves b c) :
    Preserves a c := by
  intro r cc h
  rw [h2 r cc (by rw [h1 r cc h]; exact h), h1 r cc h]

theorem preserves_setCell_zero (b : Board) (r c v : Nat)
    (h0 : getCell b r c = 0) : Preserves b (setCell b r c v) := by
  intro r' c' hne
  apply getCell_setCell_ne
  rintro ⟨rfl, rfl⟩
  exact hne h0

/-! ### Legality: peer characterisation -/

/-- `(r', c')` is a distinct cell of the same row, column or box as `(r, c)`. -/
def Peer (r c r' c' : Nat) : Prop :=
  (r' = r ∨ c' = c ∨ (r' / 3 = r / 3 ∧ c' / 3 = c / 3)) ∧ ¬(r' = r ∧ c' = c)

theorem Peer.symm {r c r' c' : Nat} (h : Peer r c r' c') : Peer r' c' r c := by
  obtain ⟨h1, h2⟩ := h
  constructor
  · rcases h1 with h | h | h
    · exact Or.inl h.symm
    · exact Or.inr (Or.inl h.symm)
    · exact Or.inr (Or.inr ⟨h.1.symm, h.2.symm⟩)
  · rintro ⟨rfl, rfl⟩
    exact h2 ⟨rfl, rfl⟩

theorem is_valid_move_iff (b : Board) (r c v : Nat) (hv : v ≠ 0)
    (hr : r < 9) (hc : c < 9) :
    is_valid_move b r c v = true ↔
      ∀ r' c', r' < 9 → c' < 9 → Peer r c r' c' → getCell b r' c' ≠ v := by
  have hrw : is_valid_move b r c v =
      (!((List.range 9).any (fun x => !(x == c) && (getCell b r x == v))) &&
       (!((List.range 9).any (fun x => !(x == r) && (getCell b x c == v))) &&
       !((List.range 3).any (fun i => (List.range 3).any (fun j =>
         (!(r / 3 * 3 + i == r) || !(c / 3 * 3 + j == c)) &&
           (getCell b (r / 3 * 3 + i) (c / 3 * 3 + j) == v)))))) := by
    unfold is_valid_move
    rw [if_neg hv]
    cases h1 : (List.range 9).any (fun x => !(x == c) && (getCell b r x == v)) <;>
      cases h2 : (List.range 9).any (fun x => !(x == r) && (getCell b x c == v)) <;>
      simp
  have hrowiff : ((List.range 9).any
      (fun x => !(x == c) && (getCell b r x == v)) = false) ↔
      ∀ x, x < 9 → x ≠ c → getCell b r x ≠ v := by
    simp [not_and, beq_eq_false_iff_ne]
  have hcoliff : ((List.range 9).any
      (fun x => !(x == r) && (getCell b x c == v)) = false) ↔
      ∀ x, x < 9 → x ≠ r → getCell b x c ≠ v := by
    simp [not_and, beq_eq_false_iff_ne]
  have hboxiff : ((List.range 3).any (fun i => (List.range 3).any (fun j =>
        (!(r / 3 * 3 + i == r) || !(c / 3 * 3 + j == c)) &&
          (getCell b (r / 3 * 3 + i) (c / 3 * 3 + j) == v))) = false) ↔
      ∀ i, i < 3 → ∀ j, j < 3 → ¬(r / 3 * 3 + i = r ∧ c / 3 * 3 + j = c) →
        getCell b (r / 3 * 3 + i) (c / 3 * 3 + j) ≠ v := by
    simp only [List.any_eq_false, List.mem_range, Bool.and_eq_true, not_and,
      beq_eq_false_iff_ne, beq_iff_eq, ne_eq, Bool.or_eq_true,
      Bool.not_eq_true', Bool.not_eq_true]
    constructor
    · intro h i hi j hj hyp hval
      exact h i hi j hj (by tauto) hval
    · intro h i hi j hj hyp hval
      exact h i hi j hj (by tauto) hval
  rw [hrw, Bool.and_eq_true, Bool.and_eq_true, Bool.not_eq_true',
    Bool.not_eq_true', Bool.not_eq_true', hrowiff, hcoliff, hboxiff]
  constructor
  · rintro ⟨hrow, hcol, hbox⟩ r' c' hr' hc' ⟨hp1, hp2⟩ hval
    rcases hp1 with rfl | rfl | hbx
    · exact hrow c' hc' (fun h => hp2 ⟨rfl, h⟩) hval
    · exact hcol r' hr' (fun h => hp2 ⟨h, rfl⟩) hval
    · have hi1 : r' = r / 3 * 3 + (r' - r / 3 * 3) := by omega
      have hi2 : r' - r / 3 * 3 < 3 := by omega
      have hj1 : c' = c / 3 * 3 + (c' - c / 3 * 3) := by omega
      have hj2 : c' - c / 3 * 3 < 3 := by omega
      have hb := hbox (r' - r / 3 * 3) hi2 (c' - c / 3 * 3) hj2
      rw [← hi1, ← hj1] at hb
      exact hb hp2 hval
  · intro h
    refine ⟨?_, ?_, ?_⟩
    · intro x hx hxc hval
      exact h r x hr hx ⟨Or.inl rfl, fun hh => hxc hh.2⟩ hval
    · intro x hx hxr hval
      exact h x c hx hc ⟨Or.inr (Or.inl rfl), fun hh => hxr hh.1⟩ hval
    · intro i hi j hj hself hval
      exact h (r / 3 * 3 + i) (c / 3 * 3 + j) (by omega) (by omega)
        ⟨Or.inr (Or.inr ⟨by omega, by omega⟩), hself⟩ hval

/-! ### Consistency: every filled cell is a legal placement -/

/-- Every non-zero cell of the 9x9 window is a legal placement. -/
def Consistent (b : Board) : Prop :=
  ∀ r, r < 9 → ∀ c, c < 9 → getCell b r c ≠ 0 →
    is_valid_move b r c (getCell b r c) = true

instance : DecidablePred Consistent := fun b => by
  unfold Consistent
  infer_instance

theorem consistent_setCell (b : Board) (r c v : Nat) (hWF : WF b)
    (hC : Consistent b) (hr : r < 9) (hc : c < 9)
    (h0 : getCell b r c = 0) (hv : v ≠ 0)
    (hlegal : is_valid_move b r c v = true) :
    Consistent (setCell b r c v) := by
  intro r' hr' c' hc' hne
  by_cases hrc : r' = r ∧ c' = c
  · obtain ⟨rfl, rfl⟩ := hrc
    have hval : getCell (setCell b r' c' v) r' c' = v :=
      getCell_setCell_self b r' c' v hWF hr' hc'
    rw [hval, is_valid_move_iff _ _ _ _ hv hr' hc']
    intro p q hp hq hpeer hpeerval
    rw [getCell_setCell_ne b r' c' v p q hpeer.2] at hpeerval
    exact (is_valid_move_iff b r' c' v hv hr' hc').mp hlegal p q hp hq hpeer hpeerval
  · have hval : getCell (setCell b r c v) r' c' = getCell b r' c' :=
      getCell_setCell_ne b r c v r' c' hrc
    rw [hval] at hne ⊢
    have hCw := hC r' hr' c' hc' hne
    rw [is_valid_move_iff _ _ _ _ hne hr' hc']
    intro p q hp hq hpeer
    by_cases hpq : p = r ∧ q = c
    · obtain ⟨rfl, rfl⟩ := hpq
      rw [getCell_setCell_self b p q v hWF hr hc]
      intro hvw
      exact (is_valid_move_iff b p q v hv hr hc).mp hlegal r' c' hr' hc'
        (Peer.symm hpeer) hvw.symm
    · rw [getCell_setCell_ne b r c v p q hpq]
      exact (is_valid_move_iff b r' c' _ hne hr' hc').mp hCw p q hp hq hpeer

theorem consistent_reset (b : Board) (r c : Nat) (hWF : WF b)
    (hC : Consistent b) (hr : r < 9) (hc : c < 9) :
    Consistent (setCell b r c 0) := by
  intro r' hr' c' hc' hne
  by_cases hrc : r' = r ∧ c' = c
  · obtain ⟨rfl, rfl⟩ := hrc
    rw [getCell_setCell_self b r' c' 0 hWF hr' hc'] at hne
    exact absurd rfl hne
  · rw [getCell_setCell_ne b r c 0 r' c' hrc] at hne ⊢
    have hCw := hC r' hr' c' hc' hne
    rw [is_valid_move_iff _ _ _ _ hne hr' hc']
    intro p q hp hq hpeer
    by_cases hpq : p = r ∧ q = c
    · obtain ⟨rfl, rfl⟩ := hpq
      rw [getCell_setCell_self b p q 0 hWF hr hc]
      exact fun h => hne h.symm
    · rw [getCell_setCell_ne b r c 0 p q hpq]
      exact (is_valid_move_iff b r' c' _ hne hr' hc').mp hCw p q hp hq hpeer

/-! ### Candidate sets -/

theorem row_length (b : Board) (hWF : WF b) (r : Nat) (hr : r < 9) :
    (b.getD r []).length = 9 := by
  obtain ⟨hlen, hrow⟩ := hWF
  have hrb : r < b.length := by omega
  rw [List.getD_eq_getElem?_getD, List.getElem?_eq_getElem hrb]
  exact hrow _ (List.getElem_mem hrb)

theorem getD_mem_of_lt {l : List Nat} {n : Nat} (h : n < l.length) (d : Nat) :
    l.getD n d ∈ l := by
  rw [List.getD_eq_getElem?_getD, List.getElem?_eq_getElem h]
  simpa using List.getElem_mem h

theorem mem_candidates (b : Board) (r c v : Nat) :
    v ∈ candidates b r c ↔
      getCell b r c = 0 ∧ 1 ≤ v ∧ v ≤ 9 ∧ v ∉ usedVals b r c := by
  unfold candidates
  by_cases h0 : getCell b r c = 0
  · rw [if_neg (by simp [h0]), List.mem_filter, List.mem_range']
    constructor
    · rintro ⟨⟨i, hi, rfl⟩, hfil⟩
      refine ⟨h0, by omega, by omega, by simpa using hfil⟩
    · rintro ⟨-, h1, h9, hnot⟩
      exact ⟨⟨v - 1, by omega, by omega⟩, by simpa using hnot⟩
  · rw [if_pos h0]
    simp [h0]

theorem candidates_legal (b : Board) (r c v : Nat) (hWF : WF b)
    (hr : r < 9) (hc : c < 9) (hv : v ∈ candidates b r c) :
    is_valid_move b r c v = true := by
  rw [mem_candidates] at hv
  obtain ⟨h0, hv1, hv9, hvused⟩ := hv
  rw [is_valid_move_iff _ _ _ _ (by omega) hr hc]
  intro p q hp hq hpeer hval
  apply hvused
  unfold usedVals
  simp only [List.mem_append, List.mem_map, List.mem_range, List.mem_flatMap]
  rcases hpeer.1 with rfl | rfl | hbox
  · -- same row
    left
    left
    have hlen := row_length b hWF p hp
    have hq' : q < (b.getD p []).length := by omega
    rw [← hval]
    exact getD_mem_of_lt hq' 0
  · -- same column
    left
    right
    exact ⟨p, hp, hval⟩
  · -- same box
    right
    refine ⟨p - r / 3 * 3, by omega, q - c / 3 * 3, by omega, ?_⟩
    have h1 : r / 3 * 3 + (p - r / 3 * 3) = p := by omega
    have h2 : c / 3 * 3 + (q - c / 3 * 3) = q := by omega
    rw [h1, h2]
    exact hval

theorem candidates_bounds (b : Board) (r c v : Nat) (hv : v ∈ candidates b r c) :
    1 ≤ v ∧ v ≤ 9 ∧ getCell b r c = 0 := by
  rw [mem_candidates] at hv
  exact ⟨hv.2.1, hv.2.2.1, hv.1⟩

/-! ### Full boards and `find_empty` -/

/-- Every cell of the 9x9 window is filled. -/
def Full (b : Board) : Prop := ∀ r, r < 9 → ∀ c, c < 9 → getCell b r c ≠ 0

instance : DecidablePred Full := fun b => by
  unfold Full
  infer_instance

theorem find_empty_eq_none (b : Board) : find_empty b = none ↔ Full b := by
  unfold find_empty Full
  rw [List.findSome?_eq_none_iff]
  constructor
  · intro h r hr c hc h0
    have h1 := h r (by rwa [List.mem_range])
    rw [List.findSome?_eq_none_iff] at h1
    have h2 := h1 c (by rwa [List.mem_range])
    rw [if_pos h0] at h2
    exact absurd h2 (by simp)
  · intro h r hrm
    rw [List.findSome?_eq_none_iff]
    intro c hcm
    rw [List.mem_range] at hrm hcm
    rw [if_neg (h r hrm c hcm)]

theorem find_empty_eq_some (b : Board) (r c : Nat)
    (h : find_empty b = some (r, c)) :
    r < 9 ∧ c < 9 ∧ getCell b r c = 0 := by
  unfold find_empty at h
  obtain ⟨i, hi, hsome⟩ := List.exists_of_findSome?_eq_some h
  obtain ⟨j, hj, hsome'⟩ := List.exists_of_findSome?_eq_some hsome
  rw [List.mem_range] at hi hj
  by_cases h0 : getCell b i j = 0
  · rw [if_pos h0] at hsome'
    simp only [Option.some.injEq, Prod.mk.injEq] at hsome'
    obtain ⟨rfl, rfl⟩ := hsome'
    exact ⟨hi, hj, h0⟩
  · rw [if_neg h0] at hsome'
    exact absurd hsome' (by simp)

/-! ### The solver invariant -/

/-- The invariant maintained by every board the solvers construct. -/
def Inv (b : Board) : Prop := WF b ∧ inRange b ∧ Consistent b

theorem inv_place (b : Board) (r c v : Nat) (h : Inv b) (hr : r < 9) (hc : c < 9)
    (h0 : getCell b r c = 0) (hv1 : 1 ≤ v) (hv9 : v ≤ 9)
    (hlegal : is_valid_move b r c v = true) : Inv (setCell b r c v) :=
  ⟨WF_setCell b r c v h.1, inRange_setCell b r c v hv9 h.2.1,
    consistent_setCell b r c v h.1 h.2.2 hr hc h0 (by omega) hlegal⟩

theorem inv_reset (b : Board) (r c : Nat) (h : Inv b) (hr : r < 9) (hc : c < 9) :
    Inv (setCell b r c 0) :=
  ⟨WF_setCell b r c 0 h.1, inRange_setCell b r c 0 (by omega) h.2.1,
    consistent_reset b r c h.1 h.2.2 hr hc⟩

/-! ### Invariants through the propagator -/

theorem allCells_bounds : ∀ p ∈ allCells, p.1 < 9 ∧ p.2 < 9 := by decide

theorem foldl_passStep_inv (cells : List (Nat × Nat))
    (hb : ∀ p ∈ cells, p.1 < 9 ∧ p.2 < 9) :
    ∀ (prog : Bool) (b : Board) (ms : List Move), Inv b →
      Inv (cells.foldl passStep (prog, b, ms)).2.1 ∧
      Preserves b (cells.foldl passStep (prog, b, ms)).2.1 := by
  induction cells with
  | nil =>
    intro prog b ms hI
    exact ⟨hI, Preserves.refl b⟩
  | cons hd tl ih =>
    intro prog b ms hI
    obtain ⟨r, c⟩ := hd
    have hrc := hb (r, c) (List.mem_cons_self _ _)
    have htl : ∀ p ∈ tl, p.1 < 9 ∧ p.2 < 9 :=
      fun p hp => hb p (List.mem_cons_of_mem _ hp)
    rw [List.foldl_cons]
    by_cases h0 : getCell b r c = 0
    · cases hcand : candidates b r c with
      | nil =>
        have hstep : passStep (prog, b, ms) (r, c) = (prog, b, ms) := by
          simp [passStep, h0, hcand]
        rw [hstep]
        exact ih htl prog b ms hI
      | cons v vs =>
        cases vs with
        | nil =>
          have hvmem : v ∈ candidates b r c := by
            rw [hcand]
            exact List.mem_cons_self _ _
          have hvb := candidates_bounds b r c v hvmem
          have hstep : passStep (prog, b, ms) (r, c) =
              (true, setCell b r c v, ms ++ [Move.singleM r c v]) := by
            simp [passStep, h0, hcand]
          rw [hstep]
          have hIb1 : Inv (setCell b r c v) :=
            inv_place b r c v hI hrc.1 hrc.2 h0 hvb.1 hvb.2.1
              (candidates_legal b r c v hI.1 hrc.1 hrc.2 hvmem)
          have hres := ih htl true (setCell b r c v) (ms ++ [Move.singleM r c v]) hIb1
          exact ⟨hres.1,
            Preserves.trans (preserves_setCell_zero b r c v h0) hres.2⟩
        | cons w ws =>
          have hstep : passStep (prog, b, ms) (r, c) = (prog, b, ms) := by
            simp [passStep, h0, hcand]
          rw [hstep]
          exact ih htl prog b ms hI
    · have hstep : passStep (prog, b, ms) (r, c) = (prog, b, ms) := by
        simp [passStep, h0]
      rw [hstep]
      exact ih htl prog b ms hI

theorem propLoop_inv (fuel : Nat) :
    ∀ (b : Board) (ms : List Move) (changed : Bool), Inv b →
      Inv (propLoop fuel b ms changed).2.1 ∧
      Preserves b (propLoop fuel b ms changed).2.1 := by
  induction fuel with
  | zero =>
    intro b ms changed hI
    exact ⟨hI, Preserves.refl b⟩
  | succ fuel ih =>
    intro b ms changed hI
    have h1 := foldl_passStep_inv allCells allCells_bounds false b ms hI
    rw [show allCells.foldl passStep (false, b, ms) = onePass b ms from rfl] at h1
    simp only [propLoop]
    rcases hE : onePass b ms with ⟨prog1, b1, ms1⟩
    rw [hE] at h1
    dsimp only at h1 ⊢
    cases prog1
    · rw [if_neg Bool.false_ne_true]
      exact h1
    · rw [if_pos (Eq.refl true)]
      have h2 := ih b1 ms1 true h1.1
      exact ⟨h2.1, Preserves.trans h1.2 h2.2⟩

theorem propagate_inv (b : Board) (ms : List Move) (hI : Inv b) :
    Inv (propagate_singles b ms).2.1 ∧ Preserves b (propagate_singles b ms).2.1 := by
  unfold propagate_singles
  exact propLoop_inv 82 b ms false hI

/-! ### The MRV selection -/

theorem mrvGo_some (b : Board) :
    ∀ (cells : List (Nat × Nat)) (best : Option (Nat × Nat × List Nat)),
      (∀ p ∈ cells, p.1 < 9 ∧ p.2 < 9) →
      (∀ r c cand, best = some (r, c, cand) →
        r < 9 ∧ c < 9 ∧ getCell b r c = 0 ∧ cand = candidates b r c) →
      ∀ r c cand, mrvGo b cells best = some (r, c, cand) →
        r < 9 ∧ c < 9 ∧ getCell b r c = 0 ∧ cand = candidates b r c := by
  intro cells
  induction cells with
  | nil =>
    intro best hb hbest r c cand h
    exact hbest r c cand h
  | cons hd tl ih =>
    intro best hb hbest r c cand h
    obtain ⟨p, q⟩ := hd
    have hpq := hb (p, q) (List.mem_cons_self _ _)
    have htl : ∀ x ∈ tl, x.1 < 9 ∧ x.2 < 9 :=
      fun x hx => hb x (List.mem_cons_of_mem _ hx)
    have hnew : ∀ r' c' cand',
        getCell b p q = 0 →
        (some (p, q, candidates b p q) :
            Option (Nat × Nat × List Nat)) = some (r', c', cand') →
        r' < 9 ∧ c' < 9 ∧ getCell b r' c' = 0 ∧ cand' = candidates b r' c' := by
      rintro r' c' cand' h0 hsome
      simp only [Option.some.injEq, Prod.mk.injEq] at hsome
      obtain ⟨rfl, rfl, rfl⟩ := hsome
      exact ⟨hpq.1, hpq.2, h0, rfl⟩
    cases best with
    | none =>
      simp only [mrvGo] at h
      by_cases h0 : getCell b p q = 0
      · rw [if_pos h0] at h
        by_cases hemp : (candidates b p q).isEmpty
        · rw [if_pos hemp] at h
          exact absurd h (by simp)
        · rw [if_neg hemp] at h
          exact ih (some (p, q, candidates b p q)) htl
            (fun r' c' cand' => hnew r' c' cand' h0) r c cand h
      · rw [if_neg h0] at h
        exact ih none htl hbest r c cand h
    | some best' =>
      simp only [mrvGo] at h
      by_cases h0 : getCell b p q = 0
      · rw [if_pos h0] at h
        by_cases hemp : (candidates b p q).isEmpty
        · rw [if_pos hemp] at h
          exact absurd h (by simp)
        · rw [if_neg hemp] at h
          by_cases hlt : (candidates b p q).length < best'.2.2.length
          · rw [if_pos hlt] at h
            exact ih (some (p, q, candidates b p q)) htl
              (fun r' c' cand' => hnew r' c' cand' h0) r c cand h
          · rw [if_neg hlt] at h
            exact ih (some best') htl hbest r c cand h
      · rw [if_neg h0] at h
        exact ih (some best') htl hbest r c cand h

theorem select_mrv_some (b : Board) (r c : Nat) (cand : List Nat)
    (h : select_mrv_cell b = some (r, c, cand)) :
    r < 9 ∧ c < 9 ∧ getCell b r c = 0 ∧ cand = candidates b r c := by
  refine mrvGo_some b allCells none allCells_bounds ?_ r c cand h
  intro r' c' cand' hsome
  exact absurd hsome (by simp)

/-! ### Invariants through the two search engines -/

/-- The bundled conclusion of one `bt()` call: the invariant persists, filled
cells persist, and success means the board came out full. -/
def BtOk (b : Board) (res : Bool × Board × List Move) : Prop :=
  Inv res.2.1 ∧ Preserves b res.2.1 ∧ (res.1 = true → Full res.2.1)

theorem goB_inv (rec : Board → List Move → Bool × Board × List Move)
    (hrec : ∀ b ms, Inv b → BtOk b (rec b ms)) :
    ∀ (vs : List Nat) (b : Board) (ms : List Move) (r c : Nat), Inv b →
      r < 9 → c < 9 → getCell b r c = 0 → (∀ v ∈ vs, 1 ≤ v ∧ v ≤ 9) →
      BtOk b (goB rec b ms r c vs) := by
  intro vs
  induction vs with
  | nil =>
    intro b ms r c hI hr hc h0 hvs
    simp only [goB]
    exact ⟨hI, Preserves.refl b, by simp⟩
  | cons v vs ih =>
    intro b ms r c hI hr hc h0 hvs
    have hv := hvs v (List.mem_cons_self _ _)
    have hvs' : ∀ w ∈ vs, 1 ≤ w ∧ w ≤ 9 :=
      fun w hw => hvs w (List.mem_cons_of_mem _ hw)
    simp only [goB]
    by_cases hval : is_valid_move b r c v = true
    · rw [if_pos hval]
      have hIb1 : Inv (setCell b r c v) :=
        inv_place b r c v hI hr hc h0 hv.1 hv.2 hval
      have hrec1 := hrec (setCell b r c v) (ms ++ [Move.tryM r c v]) hIb1
      rcases hE : rec (setCell b r c v) (ms ++ [Move.tryM r c v]) with ⟨ok1, b2, ms2⟩
      rw [hE] at hrec1
      dsimp only at hrec1 ⊢
      have hPb2 : Preserves b b2 :=
        Preserves.trans (preserves_setCell_zero b r c v h0) hrec1.2.1
      cases ok1
      · rw [if_neg Bool.false_ne_true]
        have hIb3 : Inv (setCell b2 r c 0) := inv_reset b2 r c hrec1.1 hr hc
        have h0b3 : getCell (setCell b2 r c 0) r c = 0 :=
          getCell_setCell_self b2 r c 0 hrec1.1.1 hr hc
        have hPbb3 : Preserves b (setCell b2 r c 0) := by
          intro p q hpq
          have hne : ¬(p = r ∧ q = c) := by
            rintro ⟨rfl, rfl⟩
            exact hpq h0
          rw [getCell_setCell_ne b2 r c 0 p q hne]
          exact hPb2 p q hpq
        have hres := ih (setCell b2 r c 0) (ms2 ++ [Move.backM r c v]) r c
          hIb3 hr hc h0b3 hvs'
        exact ⟨hres.1, Preserves.trans hPbb3 hres.2.1, hres.2.2⟩
      · rw [if_pos (Eq.refl true)]
        exact ⟨hrec1.1, hPb2, fun _ => hrec1.2.2 (Eq.refl true)⟩
    · rw [if_neg hval]
      exact ih b ms r c hI hr hc h0 hvs'

theorem btB_inv : ∀ (fuel : Nat) (b : Board) (ms : List Move), Inv b →
    BtOk b (btB fuel b ms) := by
  intro fuel
  induction fuel with
  | zero =>
    intro b ms hI
    simp only [btB]
    exact ⟨hI, Preserves.refl b, by simp⟩
  | succ fuel ih =>
    intro b ms hI
    simp only [btB]
    cases hE : find_empty b with
    | none =>
      exact ⟨hI, Preserves.refl b, fun _ => (find_empty_eq_none b).mp hE⟩
    | some rc =>
      obtain ⟨r, c⟩ := rc
      have hrc := find_empty_eq_some b r c hE
      exact goB_inv (btB fuel) (fun b' ms' hI' => ih b' ms' hI') digits b ms r c
        hI hrc.1 hrc.2.1 hrc.2.2 (by decide)

theorem goP_inv (rec : Board → List Move → Bool × Board × List Move)
    (hrec : ∀ b ms, Inv b → BtOk b (rec b ms)) :
    ∀ (vs : List Nat) (b : Board) (ms : List Move) (r c : Nat), Inv b →
      r < 9 → c < 9 → getCell b r c = 0 → (∀ v ∈ vs, 1 ≤ v ∧ v ≤ 9) →
      BtOk b (goP rec b ms r c vs) := by
  intro vs
  induction vs with
  | nil =>
    intro b ms r c hI hr hc h0 hvs
    simp only [goP]
    exact ⟨hI, Preserves.refl b, by simp⟩
  | cons v vs ih =>
    intro b ms r c hI hr hc h0 hvs
    have hv := hvs v (List.mem_cons_self _ _)
    have hvs' : ∀ w ∈ vs, 1 ≤ w ∧ w ≤ 9 :=
      fun w hw => hvs w (List.mem_cons_of_mem _ hw)
    simp only [goP]
    by_cases hval : is_valid_move b r c v = true
    · rw [if_pos hval]
      have hIb1 : Inv (setCell b r c v) :=
        inv_place b r c v hI hr hc h0 hv.1 hv.2 hval
      have hprop := propagate_inv (setCell b r c v)
        (ms ++ [Move.chooseM r c v] : List Move) hIb1
      rcases hPr : propagate_singles (setCell b r c v)
          (ms ++ [Move.chooseM r c v]) with ⟨ch, b2, ms2⟩
      rw [hPr] at hprop
      dsimp only at hprop ⊢
      have hrec1 := hrec b2 ms2 hprop.1
      rcases hE : rec b2 ms2 with ⟨ok1, b3, ms3⟩
      rw [hE] at hrec1
      dsimp only at hrec1 ⊢
      have hPb3 : Preserves b b3 :=
        Preserves.trans (preserves_setCell_zero b r c v h0)
          (Preserves.trans hprop.2 hrec1.2.1)
      cases ok1
      · rw [if_neg Bool.false_ne_true]
        have hIb4 : Inv (setCell b3 r c 0) := inv_reset b3 r c hrec1.1 hr hc
        have h0b4 : getCell (setCell b3 r c 0) r c = 0 :=
          getCell_setCell_self b3 r c 0 hrec1.1.1 hr hc
        have hPbb4 : Preserves b (setCell b3 r c 0) := by
          intro p q hpq
          have hne : ¬(p = r ∧ q = c) := by
            rintro ⟨rfl, rfl⟩
            exact hpq h0
          rw [getCell_setCell_ne b3 r c 0 p q hne]
          exact hPb3 p q hpq
        have hres := ih (setCell b3 r c 0) (ms3 ++ [Move.backM r c v]) r c
          hIb4 hr hc h0b4 hvs'
        exact ⟨hres.1, Preserves.trans hPbb4 hres.2.1, hres.2.2⟩
      · rw [if_pos (Eq.refl true)]
        exact ⟨hrec1.1, hPb3, fun _ => hrec1.2.2 (Eq.refl true)⟩
    · rw [if_neg hval]
      exact ih b (ms ++ [Move.chooseM r c v]) r c hI hr hc h0 hvs'

theorem btP_inv : ∀ (fuel : Nat) (b : Board) (ms : List Move), Inv b →
    BtOk b (btP fuel b ms) := by
  intro fuel
  induction fuel with
  | zero =>
    intro b ms hI
    simp only [btP]
    exact ⟨hI, Preserves.refl b, by simp⟩
  | succ fuel ih =>
    intro b ms hI
    simp only [btP]
    cases hE : select_mrv_cell b with
    | none =>
      refine ⟨hI, Preserves.refl b, fun hfull => ?_⟩
      rw [Option.isNone_iff_eq_none] at hfull
      exact (find_empty_eq_none b).mp hfull
    | some rcc =>
      obtain ⟨r, c, cand⟩ := rcc
      have hrc := select_mrv_some b r c cand hE
      refine goP_inv (btP fuel) (fun b' ms' hI' => ih b' ms' hI') cand b ms r c
        hI hrc.1 hrc.2.1 hrc.2.2.1 ?_
      intro v hvmem
      rw [hrc.2.2.2] at hvmem
      have := candidates_bounds b r c v hvmem
      exact ⟨this.1, this.2.1⟩

/-! ### Sorted lists and permutations of 1..9 -/

theorem mem_nine (v : Nat) : v ∈ nine ↔ 1 ≤ v ∧ v ≤ 9 := by
  rw [show nine = [1, 2, 3, 4, 5, 6, 7, 8, 9] from rfl]
  simp only [List.mem_cons, List.not_mem_nil, or_false]
  omega

theorem pySorted_eq_nine_iff (l : List Nat) : pySorted l = nine ↔ l.Perm nine := by
  constructor
  · intro h
    have hp : (pySorted l).Perm l := List.perm_insertionSort _ l
    rw [h] at hp
    exact hp.symm
  · intro h
    exact List.eq_of_perm_of_sorted ((List.perm_insertionSort _ l).trans h)
      (List.sorted_insertionSort _ l) (by decide)

theorem perm_nine_of_fn (f : Nat → Nat)
    (hrange : ∀ i, i < 9 → 1 ≤ f i ∧ f i ≤ 9)
    (hinj : ∀ i, i < 9 → ∀ j, j < 9 → i ≠ j → f i ≠ f j) :
    ((List.range 9).map f).Perm nine := by
  have hnodup : ((List.range 9).map f).Nodup := by
    apply List.Nodup.map_on ?_ (List.nodup_range 9)
    intro x hx y hy hf
    by_contra hne
    exact hinj x (List.mem_range.mp hx) y (List.mem_range.mp hy) hne hf
  have hsub : (List.range 9).map f ⊆ nine := by
    intro x hx
    rw [List.mem_map] at hx
    obtain ⟨i, hi, rfl⟩ := hx
    rw [List.mem_range] at hi
    rw [mem_nine]
    exact hrange i hi
  exact (hnodup.subperm hsub).perm_of_length_le (by simp [nine])

/-- A non-zero value at a cell is absent from every peer cell. -/
theorem consistent_ne (b : Board) (hC : Consistent b) (p q p' q' : Nat)
    (hp : p < 9) (hq : q < 9) (hp' : p' < 9) (hq' : q' < 9)
    (hpeer : Peer p q p' q') (h0 : getCell b p q ≠ 0) :
    getCell b p' q' ≠ getCell b p q :=
  (is_valid_move_iff b p q _ h0 hp hq).mp (hC p hp q hq h0) p' q' hp' hq' hpeer

theorem rowList_eq (b : Board) (hWF : WF b) (r : Nat) (hr : r < 9) :
    b.getD r [] = (List.range 9).map (fun c => getCell b r c) := by
  have hlen := row_length b hWF r hr
  apply List.ext_getElem
  · rw [List.getD_eq_getElem?_getD] at hlen
    simp [hlen]
  · intro i h1 h2
    simp only [List.getElem_map, List.getElem_range]
    unfold getCell
    exact (List.getD_eq_getElem (b.getD r []) 0 h1).symm

theorem boxCells_eq_map (b : Board) (br bc : Nat) :
    boxCells b br bc =
      (List.range 9).map (fun k => getCell b (br + k / 3) (bc + k % 3)) := by
  rfl

/-- A full consistent in-range board passes `is_complete_and_valid`. -/
theorem full_valid (g : Board) (hI : Inv g) (hF : Full g) :
    is_complete_and_valid g = true := by
  obtain ⟨hWF, hIR, hC⟩ := hI
  unfold is_complete_and_valid
  simp only [Bool.and_eq_true, List.all_eq_true, List.mem_range, beq_iff_eq]
  refine ⟨⟨?_, ?_⟩, ?_⟩
  · -- rows
    intro r hr
    rw [rowList_eq g hWF r hr, pySorted_eq_nine_iff]
    apply perm_nine_of_fn
    · intro c hc
      have h0 := hF r hr c hc
      have h9 := hIR r hr c hc
      omega
    · intro i hi j hj hij
      have h0 := hF r hr j hj
      exact consistent_ne g hC r j r i hr hj hr hi
        ⟨Or.inl rfl, fun hh => hij hh.2⟩ h0
  · -- columns
    intro c hc
    unfold colCells
    rw [pySorted_eq_nine_iff]
    apply perm_nine_of_fn
    · intro r hr
      have h0 := hF r hr c hc
      have h9 := hIR r hr c hc
      omega
    · intro i hi j hj hij
      have h0 := hF j hj c hc
      exact consistent_ne g hC j c i c hj hc hi hc
        ⟨Or.inr (Or.inl rfl), fun hh => hij hh.1⟩ h0
  · -- boxes
    intro br hbr bc hbc
    have hbr' : br = 0 ∨ br = 3 ∨ br = 6 := by simpa using hbr
    have hbc' : bc = 0 ∨ bc = 3 ∨ bc = 6 := by simpa using hbc
    have hbr3 : br % 3 = 0 ∧ br ≤ 6 := by omega
    have hbc3 : bc % 3 = 0 ∧ bc ≤ 6 := by omega
    rw [boxCells_eq_map, pySorted_eq_nine_iff]
    apply perm_nine_of_fn
    · intro k hk
      have hrk : br + k / 3 < 9 := by omega
      have hck : bc + k % 3 < 9 := by omega
      have h0 := hF _ hrk _ hck
      have h9 := hIR _ hrk _ hck
      omega
    · intro i hi j hj hij
      have hrj : br + j / 3 < 9 := by omega
      have hcj : bc + j % 3 < 9 := by omega
      have hri : br + i / 3 < 9 := by omega
      have hci : bc + i % 3 < 9 := by omega
      have h0 := hF _ hrj _ hcj
      refine consistent_ne g hC (br + j / 3) (bc + j % 3)
        (br + i / 3) (bc + i % 3) hrj hcj hri hci ⟨?_, ?_⟩ h0
      · right
        right
        constructor <;> omega
      · rintro ⟨h1, h2⟩
        exact hij (by omega)

/-! ### Soundness of the two solvers -/

theorem solve_bruteforce_sound (b : Board) (ms : List Move) (g : Board)
    (ms' : List Move) (hI : Inv b)
    (h : solve_bruteforce b ms = (some g, ms')) :
    Inv g ∧ Full g ∧ is_complete_and_valid g = true ∧ Preserves b g := by
  unfold solve_bruteforce at h
  rw [deep_copy_eq] at h
  dsimp only at h
  have hok := btB_inv 82 b ms hI
  rcases hE : btB 82 b ms with ⟨ok, b', msf⟩
  rw [hE] at h hok
  dsimp only at h hok
  cases ok
  · simp at h
  · have hg : b' = g ∧ msf = ms' := by simpa using h
    obtain ⟨rfl, rfl⟩ := hg
    have hFull := hok.2.2 (Eq.refl true)
    exact ⟨hok.1, hFull, full_valid b' hok.1 hFull, hok.2.1⟩

theorem solve_backtracking_propagation_sound (b : Board) (ms : List Move)
    (g : Board) (ms' : List Move) (hI : Inv b)
    (h : solve_backtracking_propagation b ms = (some g, ms')) :
    Inv g ∧ Full g ∧ is_complete_and_valid g = true ∧ Preserves b g := by
  unfold solve_backtracking_propagation at h
  rw [deep_copy_eq] at h
  dsimp only at h
  have hprop := propagate_inv b ms hI
  rcases hPr : propagate_singles b ms with ⟨ch, b1, ms1⟩
  rw [hPr] at h hprop
  dsimp only at h hprop
  have hok := btP_inv 82 b1 ms1 hprop.1
  rcases hE : btP 82 b1 ms1 with ⟨ok, b2, ms2⟩
  rw [hE] at h hok
  dsimp only at h hok
  cases ok
  · simp at h
  · have hg : b2 = g ∧ ms2 = ms' := by simpa using h
    obtain ⟨rfl, rfl⟩ := hg
    have hFull := hok.2.2 (Eq.refl true)
    exact ⟨hok.1, hFull, full_valid b2 hok.1 hFull,
      Preserves.trans hprop.2 hok.2.1⟩

/-- `g` completes `b`: a 9x9 grid that keeps every non-zero cell of `b` and
passes `is_complete_and_valid`. -/
def IsCompletion (b g : Board) : Prop :=
  WF g ∧ (∀ r, r < 9 → ∀ c, c < 9 → getCell b r c ≠ 0 →
    getCell g r c = getCell b r c) ∧ is_complete_and_valid g = true

/-! ### Restoration: a failed brute-force branch leaves the board unchanged -/

theorem set_getD_self {α : Type} (l : List α) (n : Nat) (d : α) :
    l.set n (l.getD n d) = l := by
  rcases Nat.lt_or_ge n l.length with hn | hn
  · apply List.ext_getElem?
    intro i
    rcases eq_or_ne i n with rfl | hne
    · rw [List.getElem?_set_self hn, List.getD_eq_getElem l d hn,
        List.getElem?_eq_getElem hn]
    · rw [List.getElem?_set_ne (Ne.symm hne)]
  · exact List.set_eq_of_length_le hn

theorem setCell_cancel (b : Board) (r c v : Nat) (h0 : getCell b r c = 0) :
    setCell (setCell b r c v) r c 0 = b := by
  unfold setCell
  rcases Nat.lt_or_ge r b.length with hr | hr
  · have hrow : (b.set r ((b.getD r []).set c v)).getD r [] =
        (b.getD r []).set c v := by
      rw [List.getD_eq_getElem?_getD, List.getElem?_set_self (by simpa using hr)]
      rfl
    rw [hrow, List.set_set, List.set_set]
    have hzero : (b.getD r []).set c 0 = b.getD r [] := by
      have h0' : (b.getD r []).getD c 0 = 0 := h0
      rw [← h0']
      exact set_getD_self _ _ _
    rw [hzero]
    exact set_getD_self b r []
  · have h1 : b.set r ((b.getD r []).set c v) = b := List.set_eq_of_length_le hr
    rw [h1]
    exact List.set_eq_of_length_le (by simpa using hr)

theorem goB_restore (rec : Board → List Move → Bool × Board × List Move)
    (hrec : ∀ b ms, (rec b ms).1 = false → (rec b ms).2.1 = b) :
    ∀ (vs : List Nat) (b : Board) (ms : List Move) (r c : Nat),
      getCell b r c = 0 →
      (goB rec b ms r c vs).1 = false → (goB rec b ms r c vs).2.1 = b := by
  intro vs
  induction vs with
  | nil =>
    intro b ms r c h0 h
    simp [goB]
  | cons v vs ih =>
    intro b ms r c h0 hfail
    simp only [goB] at hfail ⊢
    by_cases hval : is_valid_move b r c v = true
    · rw [if_pos hval] at hfail ⊢
      rcases hE : rec (setCell b r c v) (ms ++ [Move.tryM r c v]) with ⟨ok, b2, ms2⟩
      try rw [hE] at hfail
      try rw [hE]
      dsimp only at hfail ⊢
      cases ok
      · rw [if_neg Bool.false_ne_true] at hfail ⊢
        have hb2 : b2 = setCell b r c v := by
          have h1 := hrec (setCell b r c v) (ms ++ [Move.tryM r c v]) (by rw [hE])
          rw [hE] at h1
          exact h1
        rw [hb2, setCell_cancel b r c v h0] at hfail ⊢
        exact ih b _ r c h0 hfail
      · rw [if_pos (Eq.refl true)] at hfail
        exact absurd hfail (by simp)
    · rw [if_neg hval] at hfail ⊢
      exact ih b ms r c h0 hfail

theorem btB_restore : ∀ (fuel : Nat) (b : Board) (ms : List Move),
    (btB fuel b ms).1 = false → (btB fuel b ms).2.1 = b := by
  intro fuel
  induction fuel with
  | zero =>
    intro b ms h
    simp [btB]
  | succ fuel ih =>
    intro b ms hfail
    simp only [btB] at hfail ⊢
    cases hE : find_empty b with
    | none =>
      try rw [hE] at hfail
      try simp at hfail
      done
    | some rc =>
      obtain ⟨r, c⟩ := rc
      try rw [hE] at hfail
      try rw [hE]
      dsimp only at hfail ⊢
      have hrc := find_empty_eq_some b r c hE
      exact goB_restore (btB fuel) ih digits b ms r c hrc.2.2 hfail

/-! ### Counting empty cells -/

/-- The number of empty cells among the 81 positions. -/
def zeros (b : Board) : Nat :=
  allCells.countP (fun p => getCell b p.1 p.2 == 0)

theorem allCells_nodup : allCells.Nodup := by decide

theorem mem_allCells (r c : Nat) : (r, c) ∈ allCells ↔ r < 9 ∧ c < 9 := by
  unfold allCells
  simp only [List.mem_flatMap, List.mem_map, List.mem_range, Prod.mk.injEq]
  constructor
  · rintro ⟨a, ha, b, hb, rfl, rfl⟩
    exact ⟨ha, hb⟩
  · rintro ⟨hr, hc⟩
    exact ⟨r, hr, c, hc, rfl, rfl⟩

theorem zeros_le (b : Board) : zeros b ≤ 81 := by
  have h := List.countP_le_length (p := fun p => getCell b p.1 p.2 == 0)
    (l := allCells)
  simpa using h

theorem zeros_eq_zero_iff (b : Board) : zeros b = 0 ↔ Full b := by
  unfold zeros Full
  rw [List.countP_eq_zero]
  constructor
  · intro h r hr c hc
    have := h (r, c) ((mem_allCells r c).mpr ⟨hr, hc⟩)
    simpa using this
  · intro h p hp
    obtain ⟨r, c⟩ := p
    rw [mem_allCells] at hp
    simpa using h r hp.1 c hp.2

theorem zeros_setCell (b : Board) (r c v : Nat) (hWF : WF b) (hr : r < 9)
    (hc : c < 9) (h0 : getCell b r c = 0) (hv : v ≠ 0) :
    zeros (setCell b r c v) + 1 = zeros b := by
  obtain ⟨l1, l2, hsplit⟩ := List.append_of_mem ((mem_allCells r c).mpr ⟨hr, hc⟩)
  have hnodup := allCells_nodup
  rw [hsplit] at hnodup
  rw [List.nodup_append] at hnodup
  have hnotm1 : (r, c) ∉ l1 := fun hmem =>
    hnodup.2.2 hmem (List.mem_cons_self _ _)
  have hnotm2 : (r, c) ∉ l2 := fun hmem => (List.nodup_cons.mp hnodup.2.1).1 hmem
  have hcong : ∀ x ∈ l1, ((getCell (setCell b r c v) x.1 x.2 == 0) = true ↔
      (getCell b x.1 x.2 == 0) = true) := by
    intro x hx
    have hne : ¬(x.1 = r ∧ x.2 = c) := by
      rintro ⟨h1, h2⟩
      apply hnotm1
      have : x = (r, c) := Prod.ext h1 h2
      rwa [this] at hx
    rw [getCell_setCell_ne b r c v x.1 x.2 hne]
  have hcong2 : ∀ x ∈ l2, ((getCell (setCell b r c v) x.1 x.2 == 0) = true ↔
      (getCell b x.1 x.2 == 0) = true) := by
    intro x hx
    have hne : ¬(x.1 = r ∧ x.2 = c) := by
      rintro ⟨h1, h2⟩
      apply hnotm2
      have : x = (r, c) := Prod.ext h1 h2
      rwa [this] at hx
    rw [getCell_setCell_ne b r c v x.1 x.2 hne]
  unfold zeros
  rw [hsplit, List.countP_append, List.countP_append, List.countP_cons,
    List.countP_cons]
  rw [List.countP_congr hcong, List.countP_congr hcong2]
  have hold : (getCell b r c == 0) = true := by simpa using h0
  have hnew : (getCell (setCell b r c v) r c == 0) = false := by
    rw [getCell_setCell_self b r c v hWF hr hc]
    simpa using hv
  simp only [hold, hnew]
  simp
  omega

/-! ### Facts derived from `is_complete_and_valid` -/

theorem valid_parts (g : Board) (h : is_complete_and_valid g = true) :
    (∀ r, r < 9 → pySorted (g.getD r []) = nine) ∧
    (∀ c, c < 9 → pySorted (colCells g c) = nine) ∧
    (∀ br ∈ [0, 3, 6], ∀ bc ∈ [0, 3, 6], pySorted (boxCells g br bc) = nine) := by
  unfold is_complete_and_valid at h
  simp only [Bool.and_eq_true, List.all_eq_true, List.mem_range, beq_iff_eq] at h
  exact ⟨h.1.1, h.1.2, h.2⟩

theorem valid_row_len (g : Board) (h : is_complete_and_valid g = true)
    (r : Nat) (hr : r < 9) : (g.getD r []).length = 9 := by
  have hperm := (pySorted_eq_nine_iff _).mp ((valid_parts g h).1 r hr)
  rw [hperm.length_eq]
  rfl

theorem valid_cell_range (g : Board) (h : is_complete_and_valid g = true)
    (r c : Nat) (hr : r < 9) (hc : c < 9) :
    1 ≤ getCell g r c ∧ getCell g r c ≤ 9 := by
  have hperm := (pySorted_eq_nine_iff _).mp ((valid_parts g h).1 r hr)
  have hlen := valid_row_len g h r hr
  have hmem : (g.getD r []).getD c 0 ∈ g.getD r [] := getD_mem_of_lt (by omega) 0
  rw [← mem_nine]
  exact hperm.mem_iff.mp hmem

theorem valid_peers_ne (g : Board) (h : is_complete_and_valid g = true)
    (p q p' q' : Nat) (hp : p < 9) (hq : q < 9) (hp' : p' < 9) (hq' : q' < 9)
    (hpeer : Peer p q p' q') : getCell g p' q' ≠ getCell g p q := by
  obtain ⟨hdisj, hne⟩ := hpeer
  have hninenodup : nine.Nodup := by decide
  rcases hdisj with rfl | rfl | hbox
  · -- same row
    have hperm := (pySorted_eq_nine_iff _).mp ((valid_parts g h).1 p' hp')
    have hnodup : (g.getD p' []).Nodup := hperm.nodup_iff.mpr hninenodup
    have hlen := valid_row_len g h p' hp'
    have hq9 : q < (g.getD p' []).length := by omega
    have hq9' : q' < (g.getD p' []).length := by omega
    have hgq : (g.getD p' []).get ⟨q, hq9⟩ = getCell g p' q := by
      simp only [List.get_eq_getElem]
      exact (List.getD_eq_getElem (g.getD p' []) 0 hq9).symm
    have hgq' : (g.getD p' []).get ⟨q', hq9'⟩ = getCell g p' q' := by
      simp only [List.get_eq_getElem]
      exact (List.getD_eq_getElem (g.getD p' []) 0 hq9').symm
    intro heq
    have hfin := (hnodup.get_inj_iff (i := ⟨q', hq9'⟩) (j := ⟨q, hq9⟩)).mp
      (by rw [hgq, hgq']; exact heq)
    have : q' = q := by simpa using hfin
    exact hne ⟨rfl, this⟩
  · -- same column
    have hperm := (pySorted_eq_nine_iff _).mp ((valid_parts g h).2.1 q' hq')
    have hnodup : (colCells g q').Nodup := hperm.nodup_iff.mpr hninenodup
    have hlen : (colCells g q').length = 9 := by
      unfold colCells
      simp
    have hp9 : p < (colCells g q').length := by omega
    have hp9' : p' < (colCells g q').length := by omega
    have hgp : (colCells g q').get ⟨p, hp9⟩ = getCell g p q' := by
      simp [colCells]
    have hgp' : (colCells g q').get ⟨p', hp9'⟩ = getCell g p' q' := by
      simp [colCells]
    intro heq
    have hfin := (hnodup.get_inj_iff (i := ⟨p', hp9'⟩) (j := ⟨p, hp9⟩)).mp
      (by rw [hgp, hgp']; exact heq)
    have : p' = p := by simpa using hfin
    exact hne ⟨this, rfl⟩
  · -- same box
    obtain ⟨hbr, hbc⟩ := hbox
    have hbrmem : p / 3 * 3 ∈ [0, 3, 6] := by
      have h3 : p / 3 * 3 = 0 ∨ p / 3 * 3 = 3 ∨ p / 3 * 3 = 6 := by omega
      rcases h3 with h' | h' | h' <;> rw [h'] <;> decide
    have hbcmem : q / 3 * 3 ∈ [0, 3, 6] := by
      have h3 : q / 3 * 3 = 0 ∨ q / 3 * 3 = 3 ∨ q / 3 * 3 = 6 := by omega
      rcases h3 with h' | h' | h' <;> rw [h'] <;> decide
    have hsorted := (valid_parts g h).2.2 (p / 3 * 3) hbrmem (q / 3 * 3) hbcmem
    have hperm := (pySorted_eq_nine_iff _).mp hsorted
    have hnodup : (boxCells g (p / 3 * 3) (q / 3 * 3)).Nodup :=
      hperm.nodup_iff.mpr hninenodup
    have hlen : (boxCells g (p / 3 * 3) (q / 3 * 3)).length = 9 := by
      rw [boxCells_eq_map]
      simp
    have hk9 : (p - p / 3 * 3) * 3 + (q - q / 3 * 3) <
        (boxCells g (p / 3 * 3) (q / 3 * 3)).length := by omega
    have hk9' : (p' - p / 3 * 3) * 3 + (q' - q / 3 * 3) <
        (boxCells g (p / 3 * 3) (q / 3 * 3)).length := by omega
    have hgk : (boxCells g (p / 3 * 3) (q / 3 * 3)).get
        ⟨(p - p / 3 * 3) * 3 + (q - q / 3 * 3), hk9⟩ = getCell g p q := by
      simp only [boxCells_eq_map, List.get_eq_getElem, List.getElem_map,
        List.getElem_range]
      congr 1 <;> omega
    have hgk' : (boxCells g (p / 3 * 3) (q / 3 * 3)).get
        ⟨(p' - p / 3 * 3) * 3 + (q' - q / 3 * 3), hk9'⟩ = getCell g p' q' := by
      simp only [boxCells_eq_map, List.get_eq_getElem, List.getElem_map,
        List.getElem_range]
      congr 1 <;> omega
    intro heq
    have hfin := (hnodup.get_inj_iff
      (i := ⟨(p' - p / 3 * 3) * 3 + (q' - q / 3 * 3), hk9'⟩)
      (j := ⟨(p - p / 3 * 3) * 3 + (q - q / 3 * 3), hk9⟩)).mp
      (by rw [hgk, hgk']; exact heq)
    have hkk : (p' - p / 3 * 3) * 3 + (q' - q / 3 * 3) =
        (p - p / 3 * 3) * 3 + (q - q / 3 * 3) := by simpa using hfin
    exact hne ⟨by omega, by omega⟩

/-! ### Completeness of the brute-force search -/

/-- `b` agrees with `g` on every cell `b` has filled. -/
def SubOf (b g : Board) : Prop :=
  ∀ r, r < 9 → ∀ c, c < 9 → getCell b r c ≠ 0 → getCell b r c = getCell g r c

theorem completion_legal (b g : Board) (hsub : SubOf b g)
    (hvalid : is_complete_and_valid g = true) (r c : Nat) (hr : r < 9)
    (hc : c < 9) :
    is_valid_move b r c (getCell g r c) = true := by
  have hv := valid_cell_range g hvalid r c hr hc
  rw [is_valid_move_iff _ _ _ _ (by omega) hr hc]
  intro p q hp hq hpeer hval
  have hne0 : getCell b p q ≠ 0 := by rw [hval]; omega
  rw [hsub p hp q hq hne0] at hval
  exact valid_peers_ne g hvalid r c p q hr hc hp hq hpeer hval

theorem subOf_setCell (b g : Board) (hWF : WF b) (r c : Nat) (hr : r < 9)
    (hc : c < 9) (hsub : SubOf b g) :
    SubOf (setCell b r c (getCell g r c)) g := by
  intro p hp q hq hne
  by_cases hpq : p = r ∧ q = c
  · obtain ⟨rfl, rfl⟩ := hpq
    rw [getCell_setCell_self b p q _ hWF hp hq]
  · rw [getCell_setCell_ne b r c _ p q hpq] at hne ⊢
    exact hsub p hp q hq hne

theorem btB_complete (n : Nat) : ∀ (b : Board) (ms : List Move) (g : Board),
    WF b → SubOf b g → is_complete_and_valid g = true → zeros b ≤ n →
    (btB (n + 1) b ms).1 = true := by
  induction n with
  | zero =>
    intro b ms g hWF hsub hvalid hz
    have hfull : Full b := (zeros_eq_zero_iff b).mp (by omega)
    have hfe : find_empty b = none := (find_empty_eq_none b).mpr hfull
    simp [btB, hfe]
  | succ n ih =>
    intro b ms g hWF hsub hvalid hz
    simp only [btB]
    cases hE : find_empty b with
    | none =>
      try rw [hE]
      try simp
      done
    | some rc =>
      obtain ⟨r, c⟩ := rc
      try rw [hE]
      dsimp only
      have hrc := find_empty_eq_some b r c hE
      have hloop : ∀ (vs : List Nat) (b' : Board) (ms' : List Move),
          WF b' → SubOf b' g → zeros b' ≤ n + 1 →
          getCell b' r c = 0 → getCell g r c ∈ vs →
          (goB (btB (n + 1)) b' ms' r c vs).1 = true := by
        intro vs
        induction vs with
        | nil =>
          intro b' ms' _ _ _ _ hmem
          simp at hmem
        | cons v vs ihv =>
          intro b' ms' hWF' hsub' hz' h0' hmem
          simp only [goB]
          by_cases hveq : v = getCell g r c
          · have hlegal : is_valid_move b' r c v = true := by
              rw [hveq]
              exact completion_legal b' g hsub' hvalid r c hrc.1 hrc.2.1
            rw [if_pos hlegal]
            have hWFc := WF_setCell b' r c v hWF'
            have hsubc : SubOf (setCell b' r c v) g := by
              rw [hveq]
              exact subOf_setCell b' g hWF' r c hrc.1 hrc.2.1 hsub'
            have hv0 : v ≠ 0 := by
              have := valid_cell_range g hvalid r c hrc.1 hrc.2.1
              omega
            have hzc : zeros (setCell b' r c v) ≤ n := by
              have := zeros_setCell b' r c v hWF' hrc.1 hrc.2.1 h0' hv0
              omega
            have hchild := ih (setCell b' r c v) (ms' ++ [Move.tryM r c v]) g
              hWFc hsubc hvalid hzc
            rcases hR : btB (n + 1) (setCell b' r c v)
                (ms' ++ [Move.tryM r c v]) with ⟨ok, b2, ms2⟩
            rw [hR] at hchild
            try rw [hR]
            dsimp only at hchild ⊢
            subst hchild
            rw [if_pos (Eq.refl true)]
          · have hmem' : getCell g r c ∈ vs := by
              rcases List.mem_cons.mp hmem with heq | h
              · exact absurd heq.symm hveq
              · exact h
            by_cases hlegal : is_valid_move b' r c v = true
            · rw [if_pos hlegal]
              rcases hR : btB (n + 1) (setCell b' r c v)
                  (ms' ++ [Move.tryM r c v]) with ⟨ok, b2, ms2⟩
              try rw [hR]
              dsimp only
              cases ok
              · rw [if_neg Bool.false_ne_true]
                have hrest : b2 = setCell b' r c v := by
                  have h1 := btB_restore (n + 1) (setCell b' r c v)
                    (ms' ++ [Move.tryM r c v]) (by rw [hR])
                  rw [hR] at h1
                  exact h1
                rw [hrest, setCell_cancel b' r c v h0']
                exact ihv b' (ms2 ++ [Move.backM r c v]) hWF' hsub' hz' h0' hmem'
              · rw [if_pos (Eq.refl true)]
            · rw [if_neg hlegal]
              exact ihv b' ms' hWF' hsub' hz' h0' hmem'
      apply hloop digits b ms hWF hsub hz hrc.2.2
      have hrange := valid_cell_range g hvalid r c hrc.1 hrc.2.1
      have hd : digits = nine := Eq.refl _
      rw [hd, mem_nine]
      omega

theorem solve_bruteforce_complete (b : Board) (ms : List Move) (g : Board)
    (hWF : WF b) (hcomp : IsCompletion b g) :
    ∃ g' ms', solve_bruteforce b ms = (some g', ms') := by
  have hsub : SubOf b g := fun r hr c hc hne => (hcomp.2.1 r hr c hc hne).symm
  have h82 : (btB 82 b ms).1 = true :=
    btB_complete 81 b ms g hWF hsub hcomp.2.2 (by have := zeros_le b; omega)
  refine ⟨(btB 82 b ms).2.1, (btB 82 b ms).2.2, ?_⟩
  unfold solve_bruteforce
  rw [deep_copy_eq]
  dsimp only
  rw [if_pos h82]

/-! ### The propagator reaches a fixpoint -/

/-- No empty cell has a singleton candidate set: a scan makes no change. -/
def Unforced (b : Board) : Prop :=
  ∀ p ∈ allCells, getCell b p.1 p.2 = 0 → (candidates b p.1 p.2).length ≠ 1

theorem foldl_passStep_fix (b : Board) (hfix : Unforced b) :
    ∀ (cells : List (Nat × Nat)), (∀ p ∈ cells, p ∈ allCells) →
      ∀ (prog : Bool) (ms : List Move),
        cells.foldl passStep (prog, b, ms) = (prog, b, ms) := by
  intro cells
  induction cells with
  | nil =>
    intro _ prog ms
    rfl
  | cons hd tl ih =>
    intro hmem prog ms
    obtain ⟨r, c⟩ := hd
    have hin := hmem (r, c) (List.mem_cons_self _ _)
    have htl : ∀ p ∈ tl, p ∈ allCells := fun p hp => hmem p (List.mem_cons_of_mem _ hp)
    rw [List.foldl_cons]
    by_cases h0 : getCell b r c = 0
    · have hlen := hfix (r, c) hin h0
      cases hcand : candidates b r c with
      | nil =>
        have hstep : passStep (prog, b, ms) (r, c) = (prog, b, ms) := by
          simp [passStep, h0, hcand]
        rw [hstep]
        exact ih htl prog ms
      | cons v vs =>
        cases vs with
        | nil =>
          exact absurd (by simp [hcand]) hlen
        | cons w ws =>
          have hstep : passStep (prog, b, ms) (r, c) = (prog, b, ms) := by
            simp [passStep, h0, hcand]
          rw [hstep]
          exact ih htl prog ms
    · have hstep : passStep (prog, b, ms) (r, c) = (prog, b, ms) := by
        simp [passStep, h0]
      rw [hstep]
      exact ih htl prog ms

theorem foldl_passStep_true (cells : List (Nat × Nat)) :
    ∀ (b : Board) (ms : List Move),
      (cells.foldl passStep (true, b, ms)).1 = true := by
  induction cells with
  | nil =>
    intro b ms
    rfl
  | cons hd tl ih =>
    intro b ms
    obtain ⟨r, c⟩ := hd
    rw [List.foldl_cons]
    by_cases h0 : getCell b r c = 0
    · cases hcand : candidates b r c with
      | nil =>
        rw [show passStep (true, b, ms) (r, c) = (true, b, ms) by
          simp [passStep, h0, hcand]]
        exact ih b ms
      | cons v vs =>
        cases vs with
        | nil =>
          rw [show passStep (true, b, ms) (r, c) =
              (true, setCell b r c v, ms ++ [Move.singleM r c v]) by
            simp [passStep, h0, hcand]]
          exact ih _ _
        | cons w ws =>
          rw [show passStep (true, b, ms) (r, c) = (true, b, ms) by
            simp [passStep, h0, hcand]]
          exact ih b ms
    · rw [show passStep (true, b, ms) (r, c) = (true, b, ms) by
        simp [passStep, h0]]
      exact ih b ms

theorem foldl_passStep_false (cells : List (Nat × Nat)) :
    ∀ (b : Board) (ms : List Move),
      (cells.foldl passStep (false, b, ms)).1 = false →
      cells.foldl passStep (false, b, ms) = (false, b, ms) ∧
        (∀ p ∈ cells, getCell b p.1 p.2 = 0 →
          (candidates b p.1 p.2).length ≠ 1) := by
  induction cells with
  | nil =>
    intro b ms _
    exact ⟨rfl, by simp⟩
  | cons hd tl ih =>
    intro b ms hflag
    obtain ⟨r, c⟩ := hd
    rw [List.foldl_cons] at hflag ⊢
    by_cases h0 : getCell b r c = 0
    · cases hcand : candidates b r c with
      | nil =>
        rw [show passStep (false, b, ms) (r, c) = (false, b, ms) by
          simp [passStep, h0, hcand]] at hflag ⊢
        obtain ⟨heq, hprop⟩ := ih b ms hflag
        refine ⟨heq, ?_⟩
        intro p hp hz
        rcases List.mem_cons.mp hp with rfl | hmem
        · rw [hcand]
          simp
        · exact hprop p hmem hz
      | cons v vs =>
        cases vs with
        | nil =>
          rw [show passStep (false, b, ms) (r, c) =
              (true, setCell b r c v, ms ++ [Move.singleM r c v]) by
            simp [passStep, h0, hcand]] at hflag
          rw [foldl_passStep_true] at hflag
          exact absurd hflag (by simp)
        | cons w ws =>
          rw [show passStep (false, b, ms) (r, c) = (false, b, ms) by
            simp [passStep, h0, hcand]] at hflag ⊢
          obtain ⟨heq, hprop⟩ := ih b ms hflag
          refine ⟨heq, ?_⟩
          intro p hp hz
          rcases List.mem_cons.mp hp with rfl | hmem
          · rw [hcand]
            simp
          · exact hprop p hmem hz
    · rw [show passStep (false, b, ms) (r, c) = (false, b, ms) by
        simp [passStep, h0]] at hflag ⊢
      obtain ⟨heq, hprop⟩ := ih b ms hflag
      refine ⟨heq, ?_⟩
      intro p hp hz
      rcases List.mem_cons.mp hp with rfl | hmem
      · exact absurd hz h0
      · exact hprop p hmem hz

theorem foldl_passStep_zeros (cells : List (Nat × Nat))
    (hb : ∀ p ∈ cells, p.1 < 9 ∧ p.2 < 9) :
    ∀ (prog : Bool) (b : Board) (ms : List Move), WF b →
      WF (cells.foldl passStep (prog, b, ms)).2.1 ∧
      zeros (cells.foldl passStep (prog, b, ms)).2.1 ≤ zeros b ∧
      ((cells.foldl passStep (prog, b, ms)).1 = true →
        prog = true ∨ zeros (cells.foldl passStep (prog, b, ms)).2.1 < zeros b) := by
  induction cells with
  | nil =>
    intro prog b ms hWF
    exact ⟨hWF, Nat.le_refl _, fun h => Or.inl h⟩
  | cons hd tl ih =>
    intro prog b ms hWF
    obtain ⟨r, c⟩ := hd
    have hrc := hb (r, c) (List.mem_cons_self _ _)
    have htl : ∀ p ∈ tl, p.1 < 9 ∧ p.2 < 9 :=
      fun p hp => hb p (List.mem_cons_of_mem _ hp)
    rw [List.foldl_cons]
    by_cases h0 : getCell b r c = 0
    · cases hcand : candidates b r c with
      | nil =>
        rw [show passStep (prog, b, ms) (r, c) = (prog, b, ms) by
          simp [passStep, h0, hcand]]
        exact ih htl prog b ms hWF
      | cons v vs =>
        cases vs with
        | nil =>
          rw [show passStep (prog, b, ms) (r, c) =
              (true, setCell b r c v, ms ++ [Move.singleM r c v]) by
            simp [passStep, h0, hcand]]
          have hvmem : v ∈ candidates b r c := by
            rw [hcand]
            exact List.mem_cons_self _ _
          have hvb := candidates_bounds b r c v hvmem
          have hz := zeros_setCell b r c v hWF hrc.1 hrc.2 h0 (by omega)
          have hres := ih htl true (setCell b r c v)
            (ms ++ [Move.singleM r c v]) (WF_setCell b r c v hWF)
          exact ⟨hres.1, by omega, fun _ => Or.inr (by omega)⟩
        | cons w ws =>
          rw [show passStep (prog, b, ms) (r, c) = (prog, b, ms) by
            simp [passStep, h0, hcand]]
          exact ih htl prog b ms hWF
    · rw [show passStep (prog, b, ms) (r, c) = (prog, b, ms) by
        simp [passStep, h0]]
      exact ih htl prog b ms hWF

theorem propLoop_unforced (fuel : Nat) :
    ∀ (b : Board) (ms : List Move) (changed : Bool), WF b → zeros b < fuel →
      Unforced ((propLoop fuel b ms changed).2.1) := by
  induction fuel with
  | zero =>
    intro b ms changed _ hz
    omega
  | succ fuel ih =>
    intro b ms changed hWF hz
    have hzr := foldl_passStep_zeros allCells allCells_bounds false b ms hWF
    rw [show allCells.foldl passStep (false, b, ms) = onePass b ms from rfl] at hzr
    simp only [propLoop]
    rcases hE : onePass b ms with ⟨prog1, b1, ms1⟩
    rw [hE] at hzr
    dsimp only at hzr ⊢
    cases prog1
    · rw [if_neg Bool.false_ne_true]
      have hff := foldl_passStep_false allCells b ms
        (by rw [show allCells.foldl passStep (false, b, ms) = onePass b ms from rfl,
          hE])
      rw [show allCells.foldl passStep (false, b, ms) = onePass b ms from rfl,
        hE] at hff
      have hb1 : b1 = b := by
        have := hff.1
        simp only [Prod.mk.injEq] at this
        exact this.2.1
      subst hb1
      intro p hp hcell
      exact hff.2 p hp hcell
    · rw [if_pos (Eq.refl true)]
      have hlt : zeros b1 < zeros b := by
        rcases hzr.2.2 (Eq.refl true) with h | h
        · exact absurd h (by simp)
        · exact h
      exact ih b1 ms1 true hzr.1 (by omega)

theorem propLoop_succ (fuel : Nat) (b : Board) (ms : List Move) (ch : Bool) :
    propLoop (Nat.succ fuel) b ms ch =
      (if (onePass b ms).1 = true then
        propLoop fuel (onePass b ms).2.1 (onePass b ms).2.2 true
      else (ch, (onePass b ms).2.1, (onePass b ms).2.2)) := by
  simp only [propLoop]

theorem propagate_of_unforced (b : Board) (ms : List Move) (hfix : Unforced b) :
    propagate_singles b ms = (false, b, ms) := by
  unfold propagate_singles
  have hpass : onePass b ms = (false, b, ms) := by
    rw [show onePass b ms = allCells.foldl passStep (false, b, ms) from rfl]
    exact foldl_passStep_fix b hfix allCells (fun p hp => hp) false ms
  have h82 : propLoop 82 b ms false = propLoop (Nat.succ 81) b ms false := rfl
  rw [h82, propLoop_succ 81, hpass]
  dsimp only
  rw [if_neg Bool.false_ne_true]

theorem propagate_unforced (b : Board) (ms : List Move) (hWF : WF b) :
    Unforced ((propagate_singles b ms).2.1) := by
  unfold propagate_singles
  exact propLoop_unforced 82 b ms false hWF (by have := zeros_le b; omega)

/-! ### Behaviour on already-complete boards -/

theorem valid_full (b : Board) (h : is_complete_and_valid b = true) : Full b := by
  intro r hr c hc
  have := valid_cell_range b h r c hr hc
  omega

theorem full_unforced (b : Board) (hF : Full b) : Unforced b := by
  intro p hp hcell
  obtain ⟨r, c⟩ := p
  rw [mem_allCells] at hp
  exact absurd hcell (hF r hp.1 c hp.2)

theorem mrvGo_full (b : Board) (hF : Full b) :
    ∀ (cells : List (Nat × Nat)) (best : Option (Nat × Nat × List Nat)),
      (∀ p ∈ cells, p.1 < 9 ∧ p.2 < 9) → mrvGo b cells best = best := by
  intro cells
  induction cells with
  | nil =>
    intro best _
    rfl
  | cons hd tl ih =>
    intro best hb
    obtain ⟨r, c⟩ := hd
    have hrc := hb (r, c) (List.mem_cons_self _ _)
    have htl : ∀ p ∈ tl, p.1 < 9 ∧ p.2 < 9 :=
      fun p hp => hb p (List.mem_cons_of_mem _ hp)
    have h0 : ¬(getCell b r c = 0) := hF r hrc.1 c hrc.2
    rw [show mrvGo b ((r, c) :: tl) best =
        (if getCell b r c = 0 then
          if (candidates b r c).isEmpty then none
          else
            match best with
            | none => mrvGo b tl (some (r, c, candidates b r c))
            | some best' =>
              if (candidates b r c).length < best'.2.2.length then
                mrvGo b tl (some (r, c, candidates b r c))
              else mrvGo b tl best
        else mrvGo b tl best) from rfl]
    rw [if_neg h0]
    exact ih best htl

theorem select_mrv_full (b : Board) (hF : Full b) : select_mrv_cell b = none :=
  mrvGo_full b hF allCells none allCells_bounds

theorem btB_succ (fuel : Nat) (b : Board) (ms : List Move) :
    btB (Nat.succ fuel) b ms =
      (match find_empty b with
       | none => (true, b, ms)
       | some (r, c) => goB (btB fuel) b ms r c digits) := by
  simp only [btB]

theorem btP_succ (fuel : Nat) (b : Board) (ms : List Move) :
    btP (Nat.succ fuel) b ms =
      (match select_mrv_cell b with
       | none => ((find_empty b).isNone, b, ms)
       | some (r, c, cand) => goP (btP fuel) b ms r c cand) := by
  simp only [btP]

theorem solve_on_valid (b : Board) (ms : List Move)
    (h : is_complete_and_valid b = true) :
    solve_bruteforce b ms = (some b, ms) ∧
    solve_backtracking_propagation b ms = (some b, ms) := by
  have hFull := valid_full b h
  have hfe : find_empty b = none := (find_empty_eq_none b).mpr hFull
  constructor
  · unfold solve_bruteforce
    rw [deep_copy_eq]
    dsimp only
    have h82 : btB 82 b ms = btB (Nat.succ 81) b ms := rfl
    rw [h82, btB_succ, hfe]
    simp
  · unfold solve_backtracking_propagation
    rw [deep_copy_eq]
    dsimp only
    rw [propagate_of_unforced b ms (full_unforced b hFull)]
    dsimp only
    have h82 : btP 82 b ms = btP (Nat.succ 81) b ms := rfl
    rw [h82, btP_succ, select_mrv_full b hFull, hfe]
    simp

/-! ### A heap model of the solver entry points

The Python caller passes a reference to its board object; the first line of
each solver rebinds the local name to `deep_copy(board)`, a freshly allocated
object, and the whole recursion mutates only that fresh object.  The heap is
modelled as a list of board objects indexed by address; the solver reads the
caller's object at address `i`, allocates the working copy at the fresh
address `σ.length` and leaves its final state there. -/

def solve_bruteforce_heap (σ : List Board) (i : Nat) (ms : List Move) :
    Option Nat × List Board × List Move :=
  let work := deep_copy (σ.getD i [])
  let res := btB 82 work ms
  ((if res.1 then some σ.length else none), σ ++ [res.2.1], res.2.2)

def solve_backtracking_propagation_heap (σ : List Board) (i : Nat)
    (ms : List Move) : Option Nat × List Board × List Move :=
  let work := deep_copy (σ.getD i [])
  let pr := propagate_singles work ms
  let res := btP 82 pr.2.1 pr.2.2
  ((if res.1 then some σ.length else none), σ ++ [res.2.1], res.2.2)

/-! ### The MRV solver, instrumented to observe the legality re-check

`goPC`/`btPC` are `goP`/`btP` with one extra threaded flag that becomes true
exactly when the `is_valid_move` re-check rejects a candidate taken from the
selected cell's candidate set; `btPC_proj` proves the instrumentation is
otherwise the identity. -/

def goPC (rec : Board → List Move → Bool → Bool × Board × List Move × Bool) :
    Board → List Move → Bool → Nat → Nat → List Nat →
      Bool × Board × List Move × Bool
  | b, ms, rej, _, _, [] => (false, b, ms, rej)
  | b, ms, rej, r, c, v :: vs =>
    let ms1 := ms ++ [Move.chooseM r c v]
    if is_valid_move b r c v then
      let pr := propagate_singles (setCell b r c v) ms1
      let res := rec pr.2.1 pr.2.2 rej
      if res.1 then res
      else goPC rec (setCell res.2.1 r c 0) (res.2.2.1 ++ [Move.backM r c v])
        res.2.2.2 r c vs
    else goPC rec b ms1 true r c vs

def btPC : Nat → Board → List Move → Bool → Bool × Board × List Move × Bool
  | 0, b, ms, rej => (false, b, ms, rej)
  | Nat.succ fuel, b, ms, rej =>
    match select_mrv_cell b with
    | none => ((find_empty b).isNone, b, ms, rej)
    | some (r, c, cand) => goPC (btPC fuel) b ms rej r c cand

def solve_backtracking_propagation_checked (b : Board) (ms : List Move) :
    (Option Board × List Move) × Bool :=
  let board := deep_copy b
  let pr := propagate_singles board ms
  let res := btPC 82 pr.2.1 pr.2.2 false
  ((if res.1 then some res.2.1 else none, res.2.2.1), res.2.2.2)

theorem goPC_proj (rec : Board → List Move → Bool × Board × List Move)
    (recC : Board → List Move → Bool → Bool × Board × List Move × Bool)
    (hrec : ∀ b ms rej, ((recC b ms rej).1, (recC b ms rej).2.1,
      (recC b ms rej).2.2.1) = rec b ms) :
    ∀ (vs : List Nat) (b : Board) (ms : List Move) (rej : Bool) (r c : Nat),
      ((goPC recC b ms rej r c vs).1, (goPC recC b ms rej r c vs).2.1,
        (goPC recC b ms rej r c vs).2.2.1) = goP rec b ms r c vs := by
  intro vs
  induction vs with
  | nil =>
    intro b ms rej r c
    rfl
  | cons v vs ih =>
    intro b ms rej r c
    simp only [goPC, goP]
    by_cases hval : is_valid_move b r c v = true
    · rw [if_pos hval, if_pos hval]
      rcases hPr : propagate_singles (setCell b r c v)
          (ms ++ [Move.chooseM r c v]) with ⟨ch, b1, ms1⟩
      have hr1 := hrec b1 ms1 rej
      rcases hC : recC b1 ms1 rej with ⟨okC, bC, msC, rejC⟩
      rw [hC] at hr1
      dsimp only at hr1 ⊢
      rw [← hr1]
      dsimp only
      cases okC
      · rw [if_neg Bool.false_ne_true, if_neg Bool.false_ne_true]
        exact ih (setCell bC r c 0) (msC ++ [Move.backM r c v]) rejC r c
      · rw [if_pos (Eq.refl true), if_pos (Eq.refl true)]
    · rw [if_neg hval, if_neg hval]
      exact ih b (ms ++ [Move.chooseM r c v]) true r c

theorem btPC_proj : ∀ (fuel : Nat) (b : Board) (ms : List Move) (rej : Bool),
    ((btPC fuel b ms rej).1, (btPC fuel b ms rej).2.1,
      (btPC fuel b ms rej).2.2.1) = btP fuel b ms := by
  intro fuel
  induction fuel with
  | zero =>
    intro b ms rej
    rfl
  | succ fuel ih =>
    intro b ms rej
    simp only [btPC, btP]
    cases hE : select_mrv_cell b with
    | none => rfl
    | some rcc =>
      obtain ⟨r, c, cand⟩ := rcc
      exact goPC_proj (btP fuel) (btPC fuel) (fun b' ms' rej' => ih b' ms' rej')
        cand b ms rej r c

theorem solve_checked_proj (b : Board) (ms : List Move) :
    (solve_backtracking_propagation_checked b ms).1 =
      solve_backtracking_propagation b ms := by
  unfold solve_backtracking_propagation_checked solve_backtracking_propagation
  rw [deep_copy_eq]
  dsimp only
  rcases hPr : propagate_singles b ms with ⟨ch, b1, ms1⟩
  dsimp only
  have hp := btPC_proj 82 b1 ms1 false
  rcases hC : btPC 82 b1 ms1 false with ⟨okC, bC, msC, rejC⟩
  rw [hC] at hp
  dsimp only at hp ⊢
  rw [← hp]

/-! ### Concrete boards -/

instance : DecidablePred Inv := fun b => by
  unfold Inv
  infer_instance

/-- The classic published puzzle from the spec (also `EASY_PUZZLES[0]`). -/
def classic : Board :=
  [[5,3,0,0,7,0,0,0,0],
   [6,0,0,1,9,5,0,0,0],
   [0,9,8,0,0,0,0,6,0],
   [8,0,0,0,6,0,0,0,3],
   [4,0,0,8,0,3,0,0,1],
   [7,0,0,0,2,0,0,0,6],
   [0,6,0,0,0,0,2,8,0],
   [0,0,0,4,1,9,0,0,5],
   [0,0,0,0,8,0,0,7,9]]

/-- The unique solution of `classic`. -/
def classicSol : Board :=
  [[5,3,4,6,7,8,9,1,2],
   [6,7,2,1,9,5,3,4,8],
   [1,9,8,3,4,2,5,6,7],
   [8,5,9,7,6,1,4,2,3],
   [4,2,6,8,5,3,7,9,1],
   [7,1,3,9,2,4,8,5,6],
   [9,6,1,5,3,7,2,8,4],
   [2,8,7,4,1,9,6,3,5],
   [3,4,5,2,8,6,1,7,9]]

/-- A full board of ones: every cell is in [0,9], there are no empty cells,
and it is not a valid solution. -/
def all1 : Board :=
  [[1,1,1,1,1,1,1,1,1],
   [1,1,1,1,1,1,1,1,1],
   [1,1,1,1,1,1,1,1,1],
   [1,1,1,1,1,1,1,1,1],
   [1,1,1,1,1,1,1,1,1],
   [1,1,1,1,1,1,1,1,1],
   [1,1,1,1,1,1,1,1,1],
   [1,1,1,1,1,1,1,1,1],
   [1,1,1,1,1,1,1,1,1]]

/-- An empty cell at (0,0) whose peers exhaust all nine digits. -/
def cex4 : Board :=
  [[0,1,2,3,4,5,6,7,8],
   [9,0,0,0,0,0,0,0,0],
   [0,0,0,0,0,0,0,0,0],
   [0,0,0,0,0,0,0,0,0],
   [0,0,0,0,0,0,0,0,0],
   [0,0,0,0,0,0,0,0,0],
   [0,0,0,0,0,0,0,0,0],
   [0,0,0,0,0,0,0,0,0],
   [0,0,0,0,0,0,0,0,0]]

/-- Consistent givens with no completion: cell (0,0) is forced to 1 by its
row, but column 0 already holds a 1. -/
def cexNS : Board :=
  [[0,2,3,4,5,6,7,8,9],
   [1,0,0,0,0,0,0,0,0],
   [0,0,0,0,0,0,0,0,0],
   [0,0,0,0,0,0,0,0,0],
   [0,0,0,0,0,0,0,0,0],
   [0,0,0,0,0,0,0,0,0],
   [0,0,0,0,0,0,0,0,0],
   [0,0,0,0,0,0,0,0,0],
   [0,0,0,0,0,0,0,0,0]]

/-- Consistent givens engineered so that the MRV loop's legality re-check
rejects a candidate: the MRV cell is (0,0) with candidates {1, 2}; the branch
(0,0) := 1 propagates 2 into (0,8) and 1 into (1,6), which kills (1,8), so
the branch fails; backtracking resets only (0,0), so the kept 2 at (0,8) then
makes the re-check reject 2 at (0,0). -/
def cexR : Board :=
  [[0,3,4,5,6,7,8,9,0],
   [0,0,0,0,0,0,0,0,0],
   [0,0,0,0,0,0,0,0,0],
   [0,0,0,0,0,0,3,0,6],
   [0,0,0,0,0,0,4,0,7],
   [0,0,0,0,0,0,5,0,0],
   [0,0,0,0,0,0,6,0,3],
   [0,0,0,0,0,0,7,0,4],
   [0,0,0,0,0,0,0,0,5]]

/-- Consistent givens engineered so that placing 1 at (0,0) and propagating
forces (8,7) to 9 and leaves (8,8) with an empty candidate set: the branch
below (0,0) := 1 dies immediately. -/
def cexC10 : Board :=
  [[0,2,3,4,5,6,7,8,9],
   [0,0,0,0,0,0,0,0,0],
   [0,0,0,0,0,0,0,0,0],
   [0,0,0,0,0,0,0,0,8],
   [0,0,0,0,0,0,0,0,0],
   [0,0,0,0,0,0,0,0,0],
   [0,0,0,0,0,0,0,0,0],
   [0,0,0,0,0,0,0,0,0],
   [2,3,4,5,6,7,1,0,0]]

/-! ### The multiset reading of `is_complete_and_valid` -/

/-- Every row, column and box, read as a multiset, is exactly {1,...,9}. -/
def allUnitsPerm (b : Board) : Prop :=
  (∀ r, r < 9 → (↑(b.getD r []) : Multiset Nat) = ↑nine) ∧
  (∀ c, c < 9 → (↑(colCells b c) : Multiset Nat) = ↑nine) ∧
  (∀ br ∈ [0, 3, 6], ∀ bc ∈ [0, 3, 6],
    (↑(boxCells b br bc) : Multiset Nat) = ↑nine)

theorem valid_iff_units (b : Board) :
    is_complete_and_valid b = true ↔ allUnitsPerm b := by
  unfold is_complete_and_valid allUnitsPerm
  simp only [Bool.and_eq_true, List.all_eq_true, List.mem_range, beq_iff_eq]
  constructor
  · rintro ⟨⟨hr, hc⟩, hb⟩
    refine ⟨fun r hrr => ?_, fun c hcc => ?_, fun br hbr bc hbc => ?_⟩
    · rw [Multiset.coe_eq_coe]
      exact (pySorted_eq_nine_iff _).mp (hr r hrr)
    · rw [Multiset.coe_eq_coe]
      exact (pySorted_eq_nine_iff _).mp (hc c hcc)
    · rw [Multiset.coe_eq_coe]
      exact (pySorted_eq_nine_iff _).mp (hb br hbr bc hbc)
  · rintro ⟨hr, hc, hb⟩
    refine ⟨⟨fun r hrr => ?_, fun c hcc => ?_⟩, fun br hbr bc hbc => ?_⟩
    · exact (pySorted_eq_nine_iff _).mpr (Multiset.coe_eq_coe.mp (hr r hrr))
    · exact (pySorted_eq_nine_iff _).mpr (Multiset.coe_eq_coe.mp (hc c hcc))
    · exact (pySorted_eq_nine_iff _).mpr (Multiset.coe_eq_coe.mp (hb br hbr bc hbc))

/-! ### Boards with no completion -/

theorem no_completion_all1 (g : Board) : ¬ IsCompletion all1 g := by
  rintro ⟨hWFg, hpre, hvalid⟩
  have h1 : getCell g 0 0 = 1 :=
    (hpre 0 (by omega) 0 (by omega) (by decide)).trans (by decide)
  have h2 : getCell g 0 1 = 1 :=
    (hpre 0 (by omega) 1 (by omega) (by decide)).trans (by decide)
  have hne := valid_peers_ne g hvalid 0 0 0 1 (by omega) (by omega) (by omega)
    (by omega) ⟨Or.inl rfl, by simp⟩
  rw [h1, h2] at hne
  exact hne rfl

theorem list_len9 (l : List Nat) (h : l.length = 9) :
    ∃ x0 x1 x2 x3 x4 x5 x6 x7 x8,
      l = [x0, x1, x2, x3, x4, x5, x6, x7, x8] := by
  refine ⟨l.get ⟨0, by omega⟩, l.get ⟨1, by omega⟩, l.get ⟨2, by omega⟩,
    l.get ⟨3, by omega⟩, l.get ⟨4, by omega⟩, l.get ⟨5, by omega⟩,
    l.get ⟨6, by omega⟩, l.get ⟨7, by omega⟩, l.get ⟨8, by omega⟩, ?_⟩
  apply List.ext_getElem
  · simp [h]
  · intro i h1 h2
    have h9 : i < 9 := by omega
    interval_cases i <;> simp [List.get_eq_getElem]

theorem no_completion_cexNS (g : Board) : ¬ IsCompletion cexNS g := by
  rintro ⟨hWFg, hpre, hvalid⟩
  obtain ⟨x0, x1, x2, x3, x4, x5, x6, x7, x8, hrow⟩ :=
    list_len9 (g.getD 0 []) (valid_row_len g hvalid 0 (by omega))
  have hcelleq : ∀ c, c < 9 → getCell g 0 c = (g.getD 0 []).getD c 0 :=
    fun c _ => rfl
  have hx : ∀ c, 1 ≤ c → c < 9 → getCell g 0 c = getCell cexNS 0 c := by
    intro c h1c h9c
    exact hpre 0 (by omega) c (by omega) (by
      interval_cases c <;> decide)
  have hx1 : x1 = 2 := by
    have := hx 1 (by omega) (by omega)
    rw [hcelleq 1 (by omega), hrow] at this
    simpa using this
  have hx2 : x2 = 3 := by
    have := hx 2 (by omega) (by omega)
    rw [hcelleq 2 (by omega), hrow] at this
    simpa using this
  have hx3 : x3 = 4 := by
    have := hx 3 (by omega) (by omega)
    rw [hcelleq 3 (by omega), hrow] at this
    simpa using this
  have hx4 : x4 = 5 := by
    have := hx 4 (by omega) (by omega)
    rw [hcelleq 4 (by omega), hrow] at this
    simpa using this
  have hx5 : x5 = 6 := by
    have := hx 5 (by omega) (by omega)
    rw [hcelleq 5 (by omega), hrow] at this
    simpa using this
  have hx6 : x6 = 7 := by
    have := hx 6 (by omega) (by omega)
    rw [hcelleq 6 (by omega), hrow] at this
    simpa using this
  have hx7 : x7 = 8 := by
    have := hx 7 (by omega) (by omega)
    rw [hcelleq 7 (by omega), hrow] at this
    simpa using this
  have hx8 : x8 = 9 := by
    have := hx 8 (by omega) (by omega)
    rw [hcelleq 8 (by omega), hrow] at this
    simpa using this
  have hperm := (pySorted_eq_nine_iff _).mp ((valid_parts g hvalid).1 0 (by omega))
  rw [hrow, hx1, hx2, hx3, hx4, hx5, hx6, hx7, hx8] at hperm
  have h1mem : (1 : Nat) ∈ [x0, 2, 3, 4, 5, 6, 7, 8, 9] :=
    hperm.mem_iff.mpr (by decide)
  have hx0 : x0 = 1 := by
    simp only [List.mem_cons, List.not_mem_nil, or_false] at h1mem
    omega
  have h00 : getCell g 0 0 = 1 := by
    rw [hcelleq 0 (by omega), hrow, hx0]
    rfl
  have h10 : getCell g 1 0 = 1 :=
    (hpre 1 (by omega) 0 (by omega) (by decide)).trans (by decide)
  have hne := valid_peers_ne g hvalid 0 0 1 0 (by omega) (by omega) (by omega)
    (by omega) ⟨Or.inr (Or.inl rfl), by simp⟩
  rw [h00, h10] at hne
  exact hne rfl

/-! ### The claims -/

/-- C1 (amended): for every 9x9 grid with cells in [0,9] whose non-zero cells
are each legal placements, if `solve_bruteforce` or
`solve_backtracking_propagation` returns a solved grid, then
`is_complete_and_valid` holds of it and every originally non-zero cell is
unchanged.  (The consistency hypothesis is forced by `C1_cex`.) -/
theorem C1_amended (b : Board) (ms : List Move) (hWF : WF b) (hIR : inRange b)
    (hC : Consistent b) :
    (∀ g ms', solve_bruteforce b ms = (some g, ms') →
      is_complete_and_valid g = true ∧
      ∀ r, r < 9 → ∀ c, c < 9 → getCell b r c ≠ 0 →
        getCell g r c = getCell b r c) ∧
    (∀ g ms', solve_backtracking_propagation b ms = (some g, ms') →
      is_complete_and_valid g = true ∧
      ∀ r, r < 9 → ∀ c, c < 9 → getCell b r c ≠ 0 →
        getCell g r c = getCell b r c) := by
  have hInv : Inv b := ⟨hWF, hIR, hC⟩
  constructor
  · intro g ms' hs
    have hsound := solve_bruteforce_sound b ms g ms' hInv hs
    exact ⟨hsound.2.2.1, fun r _ c _ hne => hsound.2.2.2 r c hne⟩
  · intro g ms' hs
    have hsound := solve_backtracking_propagation_sound b ms g ms' hInv hs
    exact ⟨hsound.2.2.1, fun r _ c _ hne => hsound.2.2.2 r c hne⟩

/-- C1 (counterexample to the claim as stated): the all-ones grid has every
cell in [0,9]; both solvers return it as a solved grid, yet it fails
`is_complete_and_valid`. -/
theorem C1_cex :
    (solve_bruteforce all1 []).1 = some all1 ∧
    (solve_backtracking_propagation all1 []).1 = some all1 ∧
    is_complete_and_valid all1 = false := by
  refine ⟨by rfl, by rfl, by rfl⟩

/-- C1 (witness): the amended theorem applied to the classic puzzle. -/
theorem C1_witness :
    (∀ g ms', solve_bruteforce classic [] = (some g, ms') →
      is_complete_and_valid g = true ∧
      ∀ r, r < 9 → ∀ c, c < 9 → getCell classic r c ≠ 0 →
        getCell g r c = getCell classic r c) ∧
    (∀ g ms', solve_backtracking_propagation classic [] = (some g, ms') →
      is_complete_and_valid g = true ∧
      ∀ r, r < 9 → ∀ c, c < 9 → getCell classic r c ≠ 0 →
        getCell g r c = getCell classic r c) :=
  C1_amended classic [] (by decide) (by decide) (by decide)

/-- C2 (amended): for every 9x9 grid with cells in [0,9] whose non-zero cells
are each legal placements, if the grid has no completion then both solvers
return "no solution".  (The consistency hypothesis is forced by `C2_cex`.) -/
theorem C2_amended (b : Board) (ms : List Move) (hWF : WF b) (hIR : inRange b)
    (hC : Consistent b) (hns : ∀ g, ¬ IsCompletion b g) :
    (solve_bruteforce b ms).1 = none ∧
    (solve_backtracking_propagation b ms).1 = none := by
  have hInv : Inv b := ⟨hWF, hIR, hC⟩
  constructor
  · rcases hres : solve_bruteforce b ms with ⟨o, msf⟩
    cases o with
    | none => rfl
    | some g =>
      have hsound := solve_bruteforce_sound b ms g msf hInv hres
      exact absurd ⟨hsound.1.1, fun r _ c _ hne => hsound.2.2.2 r c hne,
        hsound.2.2.1⟩ (hns g)
  · rcases hres : solve_backtracking_propagation b ms with ⟨o, msf⟩
    cases o with
    | none => rfl
    | some g =>
      have hsound := solve_backtracking_propagation_sound b ms g msf hInv hres
      exact absurd ⟨hsound.1.1, fun r _ c _ hne => hsound.2.2.2 r c hne,
        hsound.2.2.1⟩ (hns g)

/-- C2 (counterexample to the claim as stated): the all-ones grid has no
completion, yet neither solver returns "no solution". -/
theorem C2_cex :
    (∀ g, ¬ IsCompletion all1 g) ∧
    (solve_bruteforce all1 []).1 ≠ none ∧
    (solve_backtracking_propagation all1 []).1 ≠ none :=
  ⟨no_completion_all1, by decide, by decide⟩

/-- C2 (witness): `cexNS` has consistent givens and no completion; both
solvers return "no solution" on it. -/
theorem C2_witness :
    (solve_bruteforce cexNS []).1 = none ∧
    (solve_backtracking_propagation cexNS []).1 = none :=
  C2_amended cexNS [] (by decide) (by decide) (by decide) no_completion_cexNS

/-- C3 (confirmed): `is_complete_and_valid` is true exactly when each of the
nine rows, nine columns and nine boxes, taken as a multiset, is {1,...,9}. -/
theorem C3_valid_iff_multisets (b : Board) :
    is_complete_and_valid b = true ↔
      ((∀ r, r < 9 → (↑(b.getD r []) : Multiset Nat) = ↑nine) ∧
       (∀ c, c < 9 → (↑(colCells b c) : Multiset Nat) = ↑nine) ∧
       (∀ br ∈ [0, 3, 6], ∀ bc ∈ [0, 3, 6],
         (↑(boxCells b br bc) : Multiset Nat) = ↑nine)) :=
  valid_iff_units b

/-- C4 (amended): the candidate set is empty whenever the cell is already
filled; the converse fails (see `C4_cex`): an empty cell whose peers use all
nine digits also has an empty candidate set. -/
theorem C4_amended (b : Board) (r c : Nat) (h : getCell b r c ≠ 0) :
    candidates b r c = [] := by
  unfold candidates
  rw [if_pos h]

/-- C4 (counterexample to the claim as stated): in `cex4` the cell (0,0) is
empty yet its candidate set is empty. -/
theorem C4_cex :
    ¬ ((candidates cex4 0 0 = []) ↔ getCell cex4 0 0 ≠ 0) := by
  decide

/-- C4 (witness): the amended theorem applied to a filled cell. -/
theorem C4_witness :
    getCell all1 0 0 ≠ 0 ∧ candidates all1 0 0 = [] :=
  ⟨by decide, C4_amended all1 0 0 (by decide)⟩

/-- C5 (amended): every value of the candidate set returned by the MRV
selection passes `is_valid_move` on the board the set was computed from; in
particular the first candidate tried at a node always passes the re-check.
After a failed branch the working board has changed (propagation fills are
kept, see C10) and the re-check can then reject, so the rejecting branch is
reachable (see `C5_cex`): the re-check is load-bearing, not merely
defensive. -/
theorem C5_amended (b : Board) (r c : Nat) (cand : List Nat) (hWF : WF b)
    (hsel : select_mrv_cell b = some (r, c, cand)) :
    ∀ v ∈ cand, is_valid_move b r c v = true := by
  obtain ⟨hr, hc, _, hcand⟩ := select_mrv_some b r c cand hsel
  intro v hv
  exact candidates_legal b r c v hWF hr hc (hcand ▸ hv)

/-- C5 (counterexample to the claim as stated): on the consistent grid
`cexR` the instrumented solver records that the legality re-check rejects a
candidate during the search; the instrumentation projects onto the actual
solver. -/
theorem C5_cex :
    (solve_backtracking_propagation_checked cexR []).2 = true ∧
    (solve_backtracking_propagation_checked cexR []).1 =
      solve_backtracking_propagation cexR [] :=
  ⟨by rfl, solve_checked_proj cexR []⟩

/-- C5 (witness): the amended theorem applied at the MRV cell the classic
puzzle selects, instantiated at its single candidate 5. -/
theorem C5_witness :
    WF classic ∧ select_mrv_cell classic = some (4, 4, [5]) ∧
      is_valid_move classic 4 4 5 = true :=
  ⟨by decide, by rfl,
    C5_amended classic 4 4 [5] (by decide) (by rfl) 5 (by decide)⟩

/-- C6 (confirmed): in the heap model, neither solver changes any
pre-existing board object: each deep-copies the caller's board into a fresh
object and works only on the copy. -/
theorem C6_no_caller_mutation (σ : List Board) (i : Nat) (ms : List Move)
    (j : Nat) (hj : j < σ.length) :
    (solve_bruteforce_heap σ i ms).2.1.getD j [] = σ.getD j [] ∧
    (solve_backtracking_propagation_heap σ i ms).2.1.getD j [] = σ.getD j [] := by
  unfold solve_bruteforce_heap solve_backtracking_propagation_heap
  dsimp only
  exact ⟨List.getD_append _ _ _ _ hj, List.getD_append _ _ _ _ hj⟩

/-- C6 (witness): the heap theorem applied to a one-object heap. -/
theorem C6_witness :
    (solve_bruteforce_heap [all1] 0 []).2.1.getD 0 [] = [all1].getD 0 [] ∧
    (solve_backtracking_propagation_heap [all1] 0 []).2.1.getD 0 [] =
      [all1].getD 0 [] :=
  C6_no_caller_mutation [all1] 0 [] 0 (by decide)

/-- C7 (confirmed): `propagate_singles` is idempotent on every 9x9 grid: a
second run on the result changes no cell, appends no trace entry, and
returns "no change". -/
theorem C7_propagate_idempotent (b : Board) (ms ms2 : List Move)
    (hWF : WF b) :
    propagate_singles (propagate_singles b ms).2.1 ms2 =
      (false, (propagate_singles b ms).2.1, ms2) :=
  propagate_of_unforced _ _ (propagate_unforced b ms hWF)

/-- C7 (witness): idempotence on the classic puzzle. -/
theorem C7_witness :
    propagate_singles (propagate_singles classic []).2.1 [] =
      (false, (propagate_singles classic []).2.1, []) :=
  C7_propagate_idempotent classic [] [] (by decide)

/-- C8 (confirmed): a fully pre-filled already-valid grid is returned
unchanged by both solvers, with no trace entries appended. -/
theorem C8_valid_grid_immediate (b : Board) (ms : List Move)
    (h : is_complete_and_valid b = true) :
    solve_bruteforce b ms = (some b, ms) ∧
    solve_backtracking_propagation b ms = (some b, ms) :=
  solve_on_valid b ms h

/-- C8 (witness): both solvers return the solved classic grid unchanged. -/
theorem C8_witness :
    solve_bruteforce classicSol [] = (some classicSol, []) ∧
    solve_backtracking_propagation classicSol [] = (some classicSol, []) :=
  C8_valid_grid_immediate classicSol [] (by decide)

/-- C9 (confirmed): on the classic published puzzle, both solvers return a
solved grid in which every row, column and box is a permutation of 1..9 and
cell (0,0) is 5.  The brute-force half follows from completeness plus
soundness; the MRV half is evaluated. -/
theorem C9_classic_solves :
    (∃ g ms', solve_bruteforce classic [] = (some g, ms') ∧
      allUnitsPerm g ∧ getCell g 0 0 = 5) ∧
    (∃ g ms', solve_backtracking_propagation classic [] = (some g, ms') ∧
      allUnitsPerm g ∧ getCell g 0 0 = 5) := by
  constructor
  · obtain ⟨g, ms', hsolve⟩ := solve_bruteforce_complete classic [] classicSol
      (by decide) ⟨by decide, by decide, by decide⟩
    have hsound := solve_bruteforce_sound classic [] g ms'
      ⟨by decide, by decide, by decide⟩ hsolve
    refine ⟨g, ms', hsolve, (valid_iff_units g).mp hsound.2.2.1, ?_⟩
    have h5 : getCell classic 0 0 = 5 := by decide
    have hpre := hsound.2.2.2 0 0 (by rw [h5]; omega)
    rw [hpre, h5]
  · refine ⟨classicSol, (solve_backtracking_propagation classic []).2,
      ?_, ?_, ?_⟩
    · have h1 : (solve_backtracking_propagation classic []).1 =
          some classicSol := by rfl
      rw [← h1]
    · exact (valid_iff_units classicSol).mp (by decide)
    · decide

/-- The board after placing `v` at `(r, c)` and running the propagator, as
done by the MRV loop before recursing. -/
def placeProp (b : Board) (ms : List Move) (r c v : Nat) :
    Bool × Board × List Move :=
  propagate_singles (setCell b r c v) (ms ++ [Move.chooseM r c v])

/-- The recursive `bt()` call on the placed-and-propagated board. -/
def goPStep (fuel : Nat) (b : Board) (ms : List Move) (r c v : Nat) :
    Bool × Board × List Move :=
  btP fuel (placeProp b ms r c v).2.1 (placeProp b ms r c v).2.2

/-- C10 (confirmed): when the recursive branch for candidate `v` fails, the
loop resets only the branched cell `(r, c)` of the branch's final board and
tries the next candidate there; every other cell that was non-zero after the
propagation inside the failed branch — in particular every cell that
propagation filled — still holds the same non-zero value in the board on
which the next candidate is tried. -/
theorem C10_backtrack_keeps_propagation (fuel : Nat) (b : Board)
    (ms : List Move) (r c v : Nat) (vs : List Nat) (hI : Inv b) (hr : r < 9)
    (hc : c < 9) (h0 : getCell b r c = 0) (hv1 : 1 ≤ v) (hv9 : v ≤ 9)
    (hval : is_valid_move b r c v = true)
    (hfail : (goPStep fuel b ms r c v).1 = false) :
    goP (btP fuel) b ms r c (v :: vs) =
      goP (btP fuel) (setCell (goPStep fuel b ms r c v).2.1 r c 0)
        ((goPStep fuel b ms r c v).2.2 ++ [Move.backM r c v]) r c vs
    ∧ (∀ r' c', ¬(r' = r ∧ c' = c) →
        getCell (setCell (goPStep fuel b ms r c v).2.1 r c 0) r' c' =
          getCell (goPStep fuel b ms r c v).2.1 r' c')
    ∧ (∀ r' c', ¬(r' = r ∧ c' = c) →
        getCell (placeProp b ms r c v).2.1 r' c' ≠ 0 →
        getCell (setCell (goPStep fuel b ms r c v).2.1 r c 0) r' c' =
          getCell (placeProp b ms r c v).2.1 r' c') := by
  have hplace : placeProp b ms r c v =
      propagate_singles (setCell b r c v) (ms ++ [Move.chooseM r c v]) := rfl
  have hstep : goPStep fuel b ms r c v =
      btP fuel (placeProp b ms r c v).2.1 (placeProp b ms r c v).2.2 := rfl
  refine ⟨?_, ?_, ?_⟩
  · simp only [goP]
    rw [if_pos hval]
    rw [← hplace, ← hstep, hfail]
    rw [if_neg (by decide : ¬(false = true))]
  · intro r' c' hne
    exact getCell_setCell_ne _ r c 0 r' c' hne
  · intro r' c' hne hnz
    have hI1 : Inv (setCell b r c v) :=
      inv_place b r c v hI hr hc h0 hv1 hv9 hval
    have hprop := propagate_inv (setCell b r c v)
      (ms ++ [Move.chooseM r c v]) hI1
    rw [← hplace] at hprop
    have hbt := btP_inv fuel (placeProp b ms r c v).2.1
      (placeProp b ms r c v).2.2 hprop.1
    rw [← hstep] at hbt
    rw [getCell_setCell_ne _ r c 0 r' c' hne]
    exact hbt.2.1 r' c' hnz

/-- C10 (witness): on `cexC10`, placing 1 at (0,0) and propagating leads to
a branch that fails at once; the theorem applies there. -/
theorem C10_witness :
    (goPStep 1 cexC10 [] 0 0 1).1 = false ∧
    (goP (btP 1) cexC10 [] 0 0 (1 :: [2]) =
      goP (btP 1) (setCell (goPStep 1 cexC10 [] 0 0 1).2.1 0 0 0)
        ((goPStep 1 cexC10 [] 0 0 1).2.2 ++ [Move.backM 0 0 1]) 0 0 [2]
    ∧ (∀ r' c', ¬(r' = 0 ∧ c' = 0) →
        getCell (setCell (goPStep 1 cexC10 [] 0 0 1).2.1 0 0 0) r' c' =
          getCell (goPStep 1 cexC10 [] 0 0 1).2.1 r' c')
    ∧ (∀ r' c', ¬(r' = 0 ∧ c' = 0) →
        getCell (placeProp cexC10 [] 0 0 1).2.1 r' c' ≠ 0 →
        getCell (setCell (goPStep 1 cexC10 [] 0 0 1).2.1 0 0 0) r' c' =
          getCell (placeProp cexC10 [] 0 0 1).2.1 r' c')) :=
  ⟨by rfl, C10_backtrack_keeps_propagation 1 cexC10 [] 0 0 1 [2] (by decide)
    (by decide) (by decide) (by decide) (by decide) (by decide) (by decide)
    (by rfl)⟩

end Sudoku
